import Mathlib

/-!
Verification of the balance & settlement computation engine of the
ExpenseSplitter repository.

The development shallowly embeds `src/utils/calculations.ts` and
`src/utils/receiptAllocations.ts` (together with the data model of
`src/types/domain.ts`) into Lean.  Monetary amounts are modelled as
rationals; `Number(x.toFixed(2))` and `Math.round(x * 100)` both round
ties toward positive infinity per the ECMAScript specification, which on
rationals is `⌊x * 100 + 1/2⌋`.  JavaScript's `Math.floor` on a quotient
of integers is `⌊a / b⌋` over ℚ.  `Array.prototype.sort` is stable and is
modelled by `List.insertionSort`, which produces the unique stable sorted
permutation.
-/

namespace ExpenseSplitter

/-- Models `Number(x.toFixed(2))` from `calculations.ts`: round to two
decimal places, ties toward positive infinity. -/
def round2 (x : ℚ) : ℚ := ((⌊x * 100 + 1 / 2⌋ : ℤ) : ℚ) / 100

/-- Source: `const toCents = (value) => Math.round(value * CENT_FACTOR)`
with `CENT_FACTOR = 100`. `Math.round` rounds ties toward positive
infinity. -/
def toCents (value : ℚ) : ℤ := ⌊value * 100 + 1 / 2⌋

/-- Source: `const fromCents = (value) => Number((value / CENT_FACTOR).toFixed(2))`. -/
def fromCents (value : ℤ) : ℚ := round2 ((value : ℚ) / 100)

/-- A rational is an exact number of cents (at most two decimal places). -/
def IsCent (x : ℚ) : Prop := ∃ k : ℤ, x = (k : ℚ) / 100

/-- Spec §4.1: rounding a decimal to two places with round-half-up
(`Math.round`) semantics, written from the spec's words for comparison
with the code's `fromCents ∘ toCents`. -/
def roundHalfUpTo2 (x : ℚ) : ℚ := ((⌊x * 100 + 1 / 2⌋ : ℤ) : ℚ) / 100

/-- Models JavaScript's `Math.abs`. -/
def qabs (x : ℚ) : ℚ := if x < 0 then -x else x

/-! ## Data model (`src/types/domain.ts`), restricted to the fields the
engine reads.  `ParticipantId` is an opaque string. -/

structure Participant where
  id : String
  name : String

structure PayerAllocation where
  participantId : String
  amount : ℚ

/-- An entry of `ShareSplit.shares`. -/
structure ShareEntry where
  participantId : String
  weight : ℚ
deriving DecidableEq

/-- An entry of `ExactSplit.allocations`. -/
structure ExactEntry where
  participantId : String
  amount : ℚ
deriving DecidableEq

/-- `SplitInstruction = EvenSplit | ShareSplit | ExactSplit`, a tagged union. -/
inductive SplitInstruction where
  | even (participantIds : List String)
  | shares (shares : List ShareEntry)
  | exact (allocations : List ExactEntry)

structure Expense where
  id : String
  amount : ℚ
  paidBy : List PayerAllocation
  split : SplitInstruction

structure Event where
  id : String
  participants : List Participant
  expenses : List Expense

/-- The `ShareCents` record of `calculations.ts`. -/
structure ShareCents where
  participantId : String
  cents : ℤ
deriving DecidableEq

structure ExpenseShare where
  participantId : String
  amount : ℚ
deriving DecidableEq

structure ParticipantBalance where
  participantId : String
  paid : ℚ
  owes : ℚ
  net : ℚ
deriving DecidableEq

instance : Inhabited ParticipantBalance := ⟨⟨"", 0, 0, 0⟩⟩

/-- A settlement `{from, to, amount}`; `from` is a Lean keyword, so the
fields are named `from_` and `to_`. -/
structure Settlement where
  from_ : String
  to_ : String
  amount : ℚ
deriving DecidableEq

structure EventTotals where
  participants : ℕ
  expenses : ℚ

structure EventBalanceSummary where
  totals : EventTotals
  balances : List ParticipantBalance

structure ReceiptLineItem where
  id : String
  description : String
  amount : ℚ
  assignedParticipantIds : List String

structure ReceiptAllocationSummary where
  perParticipant : List (String × ℚ)
  unassignedItemIds : List String
  total : ℚ

/-! ## Split distributor (`calculations.ts`) -/

/-- The body of `distributeEven`'s `participantIds.map(...)`: walk the
participants in the order given, decrementing `remainder` and handing
one extra cent while it is positive. -/
def evenWalk (base : ℤ) : List String → ℤ → List ShareCents
  | [], _ => []
  | pid :: rest, remainder =>
    ShareCents.mk pid (base + if 0 < remainder then 1 else 0) ::
      evenWalk base rest (if 0 < remainder then remainder - 1 else remainder)

/-- Source: `distributeEven(totalCents, participantIds)`.  The count is
`participantIds.length || 1` and `base = Math.floor(totalCents / count)`. -/
def distributeEven (totalCents : ℤ) (participantIds : List String) : List ShareCents :=
  let count : ℤ := if participantIds.length = 0 then 1 else (participantIds.length : ℤ)
  let base : ℤ := ⌊(totalCents : ℚ) / (count : ℚ)⌋
  evenWalk base participantIds (totalCents - base * count)

/-- `split.shares.filter((share) => share.weight > 0)`. -/
def positivePart (shares : List ShareEntry) : List ShareEntry :=
  shares.filter (fun share => 0 < share.weight)

/-- One entry of the `floored` intermediate array of `distributeShares`. -/
structure FlooredShare where
  participantId : String
  cents : ℤ
  fraction : ℚ
deriving DecidableEq

/-- The `floored` array of `distributeShares`: exact fractional shares of
the positive-weight participants, floored, with the fractional remainder
kept alongside. -/
def flooredShares (totalCents : ℤ) (shares : List ShareEntry) : List FlooredShare :=
  let pos := positivePart shares
  let totalWeight := (pos.map ShareEntry.weight).sum
  pos.map (fun share =>
    let exactCents := share.weight / totalWeight * (totalCents : ℚ)
    FlooredShare.mk share.participantId ⌊exactCents⌋ (exactCents - ⌊exactCents⌋))

/-- The comparator `(a, b) => b.fraction - a.fraction`: descending by
fractional remainder. -/
def fracGe (a b : FlooredShare) : Prop := b.fraction ≤ a.fraction

instance : DecidableRel fracGe := fun a b => inferInstanceAs (Decidable (b.fraction ≤ a.fraction))

instance : IsTotal FlooredShare fracGe := ⟨fun a b => le_total b.fraction a.fraction⟩

instance : IsTrans FlooredShare fracGe := ⟨fun _ _ _ h1 h2 => le_trans h2 h1⟩

/-- The `sorted` array of `distributeShares`: a stable sort of `floored`
by descending fractional remainder (JavaScript `Array.prototype.sort` is
stable). -/
def sortedFloored (totalCents : ℤ) (shares : List ShareEntry) : List FlooredShare :=
  List.insertionSort fracGe (flooredShares totalCents shares)

/-- `totalCents - allocated` in `distributeShares`. -/
def sharesRemainder (totalCents : ℤ) (shares : List ShareEntry) : ℤ :=
  totalCents - ((flooredShares totalCents shares).map FlooredShare.cents).sum

/-- The final `for` loop of `distributeShares`: add one cent to the first
`remainder` entries. -/
def addOneWhile : List ShareCents → ℤ → List ShareCents
  | [], _ => []
  | entry :: rest, remainder =>
    if 0 < remainder then
      ShareCents.mk entry.participantId (entry.cents + 1) :: addOneWhile rest (remainder - 1)
    else entry :: rest

/-- Source: `distributeShares(totalCents, split)`. -/
def distributeShares (totalCents : ℤ) (shares : List ShareEntry) : List ShareCents :=
  if positivePart shares = [] then
    distributeEven totalCents (shares.map ShareEntry.participantId)
  else
    addOneWhile
      ((sortedFloored totalCents shares).map (fun entry =>
        ShareCents.mk entry.participantId entry.cents))
      (sharesRemainder totalCents shares)

/-- Source: `distributeExact(totalCents, split)`: convert each stated
allocation to cents and add the whole difference to the first entry when
the sum disagrees with the total. -/
def distributeExact (totalCents : ℤ) (allocations : List ExactEntry) : List ShareCents :=
  let allocs := allocations.map (fun entry =>
    ShareCents.mk entry.participantId (toCents entry.amount))
  let allocated := (allocs.map ShareCents.cents).sum
  let difference := totalCents - allocated
  if difference ≠ 0 ∧ allocs ≠ [] then
    match allocs with
    | [] => []
    | first :: rest => ShareCents.mk first.participantId (first.cents + difference) :: rest
  else allocs

/-- Source: `calculateExpenseShares(expense)`. -/
def calculateExpenseShares (expense : Expense) : List ExpenseShare :=
  let totalCents := toCents expense.amount
  let shares :=
    match expense.split with
    | SplitInstruction.even participantIds => distributeEven totalCents participantIds
    | SplitInstruction.shares shareList => distributeShares totalCents shareList
    | SplitInstruction.exact allocations => distributeExact totalCents allocations
  shares.map (fun entry => ExpenseShare.mk entry.participantId (fromCents entry.cents))

/-! ## Balance aggregator (`calculateEventBalances`) -/

/-- The `Map<ParticipantId, ParticipantBalance>` of the source, as an
association list in insertion order. -/
abbrev BalanceMap := List (String × ParticipantBalance)

/-- `balances.set(key, value)`: overwrite an existing key in place, else
append (JavaScript `Map` keeps first-insertion order). -/
def mapSet (m : BalanceMap) (key : String) (value : ParticipantBalance) : BalanceMap :=
  if m.any (fun entry => entry.1 = key) then
    m.map (fun entry => if entry.1 = key then (entry.1, value) else entry)
  else m ++ [(key, value)]

/-- `const entry = balances.get(key); if (entry) { mutate entry }`: update
the entry with the given key, and do nothing when the key is absent. -/
def mapUpdate (m : BalanceMap) (key : String) (f : ParticipantBalance → ParticipantBalance) :
    BalanceMap :=
  m.map (fun entry => if entry.1 = key then (entry.1, f entry.2) else entry)

/-- `entry.paid = Number((entry.paid + allocation.amount).toFixed(2))`. -/
def addPaid (amount : ℚ) (b : ParticipantBalance) : ParticipantBalance :=
  ⟨b.participantId, round2 (b.paid + amount), b.owes, b.net⟩

/-- `entry.owes = Number((entry.owes + share.amount).toFixed(2))`. -/
def addOwes (amount : ℚ) (b : ParticipantBalance) : ParticipantBalance :=
  ⟨b.participantId, b.paid, round2 (b.owes + amount), b.net⟩

/-- The body of `event.expenses.forEach`: credit each payer allocation,
then charge each computed share. -/
def applyExpense (m : BalanceMap) (expense : Expense) : BalanceMap :=
  let afterPaid := expense.paidBy.foldl
    (fun acc allocation => mapUpdate acc allocation.participantId (addPaid allocation.amount)) m
  (calculateExpenseShares expense).foldl
    (fun acc share => mapUpdate acc share.participantId (addOwes share.amount)) afterPaid

/-- `event.participants.forEach((p) => balances.set(p.id, {...zeroes}))`. -/
def initialBalances (participants : List Participant) : BalanceMap :=
  participants.foldl (fun m p => mapSet m p.id ⟨p.id, 0, 0, 0⟩) []

/-- Source: `calculateEventBalances(event)`. -/
def calculateEventBalances (event : Event) : EventBalanceSummary :=
  let finalMap := event.expenses.foldl applyExpense (initialBalances event.participants)
  let totalExpenses := event.expenses.foldl (fun total expense => total + expense.amount) 0
  ⟨⟨event.participants.length, round2 totalExpenses⟩,
    finalMap.map (fun entry =>
      ⟨entry.2.participantId, round2 entry.2.paid, round2 entry.2.owes,
        round2 (entry.2.paid - entry.2.owes)⟩)⟩

/-! ## Settlement reducer (`suggestSettlements`) -/

/-- Comparator `(a, b) => b.net - a.net` (descending by net). -/
def netGe (a b : ParticipantBalance) : Prop := b.net ≤ a.net

instance : DecidableRel netGe := fun a b => inferInstanceAs (Decidable (b.net ≤ a.net))

/-- Comparator `(a, b) => a.net - b.net` (ascending by net). -/
def netLe (a b : ParticipantBalance) : Prop := a.net ≤ b.net

instance : DecidableRel netLe := fun a b => inferInstanceAs (Decidable (a.net ≤ b.net))

/-- The mutable state of the `while` loop in `suggestSettlements`. -/
structure SettleState where
  creditors : List ParticipantBalance
  debtors : List ParticipantBalance
  creditorIndex : ℕ
  debtorIndex : ℕ
  settlements : List Settlement

/-- The loop guard has failed: a pointer ran off its list. -/
def settleDone (s : SettleState) : Prop :=
  s.creditors.length ≤ s.creditorIndex ∨ s.debtors.length ≤ s.debtorIndex

instance (s : SettleState) : Decidable (settleDone s) := by
  unfold settleDone
  infer_instance

/-- One iteration of the `while` loop of `suggestSettlements`. -/
def settleStep (tolerance : ℚ) (s : SettleState) : SettleState :=
  let creditor := s.creditors.getD s.creditorIndex default
  let debtor := s.debtors.getD s.debtorIndex default
  let amount := min creditor.net (qabs debtor.net)
  let creditorNet := round2 (creditor.net - amount)
  let debtorNet := round2 (debtor.net + amount)
  SettleState.mk
    (s.creditors.set s.creditorIndex
      ⟨creditor.participantId, creditor.paid, creditor.owes, creditorNet⟩)
    (s.debtors.set s.debtorIndex
      ⟨debtor.participantId, debtor.paid, debtor.owes, debtorNet⟩)
    (if creditorNet ≤ tolerance then s.creditorIndex + 1 else s.creditorIndex)
    (if qabs debtorNet ≤ tolerance then s.debtorIndex + 1 else s.debtorIndex)
    (s.settlements ++ [Settlement.mk debtor.participantId creditor.participantId (round2 amount)])

/-- The `while` loop, with explicit fuel: for a nonnegative tolerance each
iteration advances a pointer, so `creditors.length + debtors.length` fuel
reaches the loop exit (proved below); a negative tolerance makes the
source loop run forever. -/
def settleLoop (tolerance : ℚ) : ℕ → SettleState → SettleState
  | 0, s => s
  | fuel + 1, s => if settleDone s then s else settleLoop tolerance fuel (settleStep tolerance s)

/-- The partitioned-and-sorted starting state of `suggestSettlements`:
creditors with `net > tolerance` sorted descending, debtors with
`net < -tolerance` sorted ascending (the `{...balance}` copies are
identities on immutable data). -/
def initialSettleState (balances : List ParticipantBalance) (tolerance : ℚ) : SettleState :=
  SettleState.mk
    (List.insertionSort netGe (balances.filter (fun balance => tolerance < balance.net)))
    (List.insertionSort netLe (balances.filter (fun balance => balance.net < -tolerance)))
    0 0 []

/-- Source: `suggestSettlements(balances, tolerance = 0.01)`. -/
def suggestSettlements (balances : List ParticipantBalance) (tolerance : ℚ) : List Settlement :=
  let s := initialSettleState balances tolerance
  (settleLoop tolerance (s.creditors.length + s.debtors.length) s).settlements

/-! ## Receipt allocation engine (`receiptAllocations.ts`) -/

/-- `perParticipantCents[pid] = (perParticipantCents[pid] ?? 0) + cents`:
object keys keep first-insertion order. -/
def addCents (m : List (String × ℤ)) (key : String) (cents : ℤ) : List (String × ℤ) :=
  if m.any (fun entry => entry.1 = key) then
    m.map (fun entry => if entry.1 = key then (entry.1, entry.2 + cents) else entry)
  else m ++ [(key, cents)]

/-- The `participants.forEach` walk of `calculateReceiptAllocations`:
identical remainder handling to `distributeEven`, accumulating into the
per-participant cents map. -/
def receiptWalk (base : ℤ) : List String → ℤ → List (String × ℤ) → List (String × ℤ)
  | [], _, per => per
  | pid :: rest, remainder, per =>
    receiptWalk base rest (if 0 < remainder then remainder - 1 else remainder)
      (addCents per pid (base + if 0 < remainder then 1 else 0))

/-- The running accumulator of `calculateReceiptAllocations`. -/
structure ReceiptAccum where
  perParticipantCents : List (String × ℤ)
  unassignedItemIds : List String
  totalCents : ℤ

/-- The body of `items.forEach` in `calculateReceiptAllocations`. -/
def receiptStep (acc : ReceiptAccum) (item : ReceiptLineItem) : ReceiptAccum :=
  let itemCents := toCents item.amount
  let newTotal := acc.totalCents + itemCents
  if item.assignedParticipantIds = [] then
    ⟨acc.perParticipantCents, acc.unassignedItemIds ++ [item.id], newTotal⟩
  else
    let count : ℤ := (item.assignedParticipantIds.length : ℤ)
    let base : ℤ := ⌊(itemCents : ℚ) / (count : ℚ)⌋
    ⟨receiptWalk base item.assignedParticipantIds (itemCents - base * count)
        acc.perParticipantCents,
      acc.unassignedItemIds, newTotal⟩

/-- Source: `calculateReceiptAllocations(items)`. -/
def calculateReceiptAllocations (items : List ReceiptLineItem) : ReceiptAllocationSummary :=
  let acc := items.foldl receiptStep ⟨[], [], 0⟩
  ⟨acc.perParticipantCents.map (fun entry => (entry.1, round2 ((entry.2 : ℚ) / 100))),
    acc.unassignedItemIds,
    round2 ((acc.totalCents : ℚ) / 100)⟩

/-! ## Definitions used by the verification (measures, invariants,
per-participant contributions) -/

/-- Number of creditor and debtor entries the loop pointers have not yet
passed. -/
def pending (s : SettleState) : ℕ :=
  (s.creditors.length - s.creditorIndex) + (s.debtors.length - s.debtorIndex)

/-- The `while` loop of `suggestSettlements` never reaches its exit
condition on this input, whatever the fuel. -/
def settleNeverDone (balances : List ParticipantBalance) (tolerance : ℚ) : Prop :=
  ∀ fuel : ℕ, ¬ settleDone (settleLoop tolerance fuel (initialSettleState balances tolerance))

/-- Total amount the settlements transfer to `pid` (as creditor). -/
def sumTo (settlements : List Settlement) (pid : String) : ℚ :=
  ((settlements.filter (fun s => s.to_ = pid)).map Settlement.amount).sum

/-- Total amount the settlements transfer away from `pid` (as debtor). -/
def sumFrom (settlements : List Settlement) (pid : String) : ℚ :=
  ((settlements.filter (fun s => s.from_ = pid)).map Settlement.amount).sum

/-- The net balance of a participant after applying every settlement:
each settlement amount is subtracted from the creditor's net and added to
the debtor's net. -/
def appliedNet (settlements : List Settlement) (balance : ParticipantBalance) : ℚ :=
  balance.net - sumTo settlements balance.participantId
    + sumFrom settlements balance.participantId

/-- Positional loop invariant of `suggestSettlements` (no participant-id
reasoning): entries the pointers passed are settled, entries not yet
reached are still beyond tolerance, nets are whole cents, and emitted
amounts exceed the tolerance. -/
structure NetInv (tolerance : ℚ) (s : SettleState) : Prop where
  cred_pending : ∀ j : ℕ, s.creditorIndex ≤ j → j < s.creditors.length →
    tolerance < (s.creditors.getD j default).net
  debt_pending : ∀ j : ℕ, s.debtorIndex ≤ j → j < s.debtors.length →
    (s.debtors.getD j default).net < -tolerance
  cred_done : ∀ j : ℕ, j < s.creditorIndex → j < s.creditors.length →
    0 ≤ (s.creditors.getD j default).net ∧ (s.creditors.getD j default).net ≤ tolerance
  debt_done : ∀ j : ℕ, j < s.debtorIndex → j < s.debtors.length →
    -tolerance ≤ (s.debtors.getD j default).net ∧ (s.debtors.getD j default).net ≤ 0
  cred_cent : ∀ b ∈ s.creditors, IsCent b.net
  debt_cent : ∀ b ∈ s.debtors, IsCent b.net
  amount_inv : ∀ t ∈ s.settlements, tolerance < t.amount ∧ IsCent t.amount

/-- Accounting loop invariant of `suggestSettlements`, relative to the
initial sorted partitions `cs0`, `ds0`: the stored residual nets are the
initial nets adjusted by the settlements emitted so far. -/
structure SettleInv (cs0 ds0 : List ParticipantBalance) (s : SettleState) : Prop where
  clen : s.creditors.length = cs0.length
  dlen : s.debtors.length = ds0.length
  cred_pid : ∀ j : ℕ, j < cs0.length →
    (s.creditors.getD j default).participantId = (cs0.getD j default).participantId
  debt_pid : ∀ j : ℕ, j < ds0.length →
    (s.debtors.getD j default).participantId = (ds0.getD j default).participantId
  cred_net : ∀ j : ℕ, j < cs0.length →
    (s.creditors.getD j default).net
      = (cs0.getD j default).net - sumTo s.settlements ((cs0.getD j default).participantId)
  debt_net : ∀ j : ℕ, j < ds0.length →
    (s.debtors.getD j default).net
      = (ds0.getD j default).net + sumFrom s.settlements ((ds0.getD j default).participantId)
  to_mem : ∀ t ∈ s.settlements, t.to_ ∈ cs0.map ParticipantBalance.participantId
  from_mem : ∀ t ∈ s.settlements, t.from_ ∈ ds0.map ParticipantBalance.participantId

/-- Sum of the payer allocations of `expense` naming `pid`. -/
def paidContrib (expense : Expense) (pid : String) : ℚ :=
  ((expense.paidBy.filter (fun allocation => allocation.participantId = pid)).map
    PayerAllocation.amount).sum

/-- Sum of the computed shares of `expense` charged to `pid`. -/
def owesContrib (expense : Expense) (pid : String) : ℚ :=
  (((calculateExpenseShares expense).filter (fun share => share.participantId = pid)).map
    ExpenseShare.amount).sum

/-- The rounding-free effect of one expense on one balance-map entry. -/
def balContrib (expense : Expense) (entry : String × ParticipantBalance) :
    String × ParticipantBalance :=
  (entry.1, ⟨entry.2.participantId, entry.2.paid + paidContrib expense entry.1,
    entry.2.owes + owesContrib expense entry.1, entry.2.net⟩)

/-- Every `paid`/`owes` value in the map is a whole number of cents. -/
def GoodMap (m : BalanceMap) : Prop :=
  ∀ entry ∈ m, IsCent entry.2.paid ∧ IsCent entry.2.owes

/-- Every payer allocation of the expense is a whole number of cents (the
data-model contract: monetary amounts have two decimal places). -/
def CentPayers (expense : Expense) : Prop :=
  ∀ allocation ∈ expense.paidBy, IsCent allocation.amount

/-! ## Arithmetic lemmas -/

theorem isCent_zero : IsCent 0 := ⟨0, by norm_num⟩

theorem isCent_add {x y : ℚ} (hx : IsCent x) (hy : IsCent y) : IsCent (x + y) := by
  obtain ⟨k, hk⟩ := hx
  obtain ⟨m, hm⟩ := hy
  exact ⟨k + m, by rw [hk, hm]; push_cast; ring⟩

theorem isCent_neg {x : ℚ} (hx : IsCent x) : IsCent (-x) := by
  obtain ⟨k, hk⟩ := hx
  exact ⟨-k, by rw [hk]; push_cast; ring⟩

theorem isCent_sub {x y : ℚ} (hx : IsCent x) (hy : IsCent y) : IsCent (x - y) := by
  rw [sub_eq_add_neg]
  exact isCent_add hx (isCent_neg hy)

theorem isCent_min {x y : ℚ} (hx : IsCent x) (hy : IsCent y) : IsCent (min x y) := by
  rcases min_choice x y with h | h <;> rw [h] <;> assumption

theorem floor_intCast_add_half (k : ℤ) : ⌊(k : ℚ) + 1 / 2⌋ = k := by
  rw [add_comm, Int.floor_add_int]
  norm_num

theorem round2_intCast_div (k : ℤ) : round2 ((k : ℚ) / 100) = (k : ℚ) / 100 := by
  have h : ((k : ℚ) / 100) * 100 + 1 / 2 = (k : ℚ) + 1 / 2 := by
    field_simp
  rw [round2, h, floor_intCast_add_half]

theorem round2_eq_of_isCent {x : ℚ} (hx : IsCent x) : round2 x = x := by
  obtain ⟨k, hk⟩ := hx
  rw [hk, round2_intCast_div]

theorem isCent_round2 (x : ℚ) : IsCent (round2 x) := ⟨⌊x * 100 + 1 / 2⌋, rfl⟩

theorem round2_zero : round2 0 = 0 := round2_eq_of_isCent isCent_zero

theorem round2_mono {x y : ℚ} (h : x ≤ y) : round2 x ≤ round2 y := by
  unfold round2
  have hf : ⌊x * 100 + 1 / 2⌋ ≤ ⌊y * 100 + 1 / 2⌋ := by
    apply Int.floor_le_floor
    nlinarith
  have : ((⌊x * 100 + 1 / 2⌋ : ℤ) : ℚ) ≤ ((⌊y * 100 + 1 / 2⌋ : ℤ) : ℚ) := by
    exact_mod_cast hf
  linarith

theorem round2_nonpos {x : ℚ} (h : x ≤ 0) : round2 x ≤ 0 := by
  have := round2_mono h
  rwa [round2_zero] at this

theorem fromCents_eq (k : ℤ) : fromCents k = (k : ℚ) / 100 := round2_intCast_div k

theorem isCent_fromCents (k : ℤ) : IsCent (fromCents k) := ⟨k, fromCents_eq k⟩

theorem toCents_intCast_div (k : ℤ) : toCents ((k : ℚ) / 100) = k := by
  have h : ((k : ℚ) / 100) * 100 + 1 / 2 = (k : ℚ) + 1 / 2 := by
    field_simp
  rw [toCents, h, floor_intCast_add_half]

theorem qabs_eq_abs (x : ℚ) : qabs x = |x| := by
  unfold qabs
  rcases lt_or_ge x 0 with h | h
  · rw [if_pos h, abs_of_neg h]
  · rw [if_neg (not_lt.mpr h), abs_of_nonneg h]

theorem qabs_of_nonpos {x : ℚ} (h : x ≤ 0) : qabs x = -x := by
  rw [qabs_eq_abs, abs_of_nonpos h]

theorem isCent_qabs {x : ℚ} (hx : IsCent x) : IsCent (qabs x) := by
  unfold qabs
  split
  · exact isCent_neg hx
  · exact hx

/-! ## General helper lemmas -/

theorem getD_map_of_lt {α β : Type} (f : α → β) (l : List α) (i : ℕ) (hi : i < l.length)
    (d : β) (d' : α) : (l.map f).getD i d = f (l.getD i d') := by
  induction l generalizing i with
  | nil => simp at hi
  | cons a rest ih =>
    cases i with
    | zero => simp
    | succ j =>
      simp only [List.map_cons, List.getD_cons_succ]
      exact ih j (by simpa using hi)

theorem floorDiv_bounds (T n : ℤ) (hn : 0 < n) :
    ⌊(T : ℚ) / (n : ℚ)⌋ * n ≤ T ∧ T < ⌊(T : ℚ) / (n : ℚ)⌋ * n + n := by
  have hnq : (0 : ℚ) < (n : ℚ) := by exact_mod_cast hn
  have h1 : ((⌊(T : ℚ) / (n : ℚ)⌋ : ℤ) : ℚ) ≤ (T : ℚ) / (n : ℚ) := Int.floor_le _
  have h2 : (T : ℚ) / (n : ℚ) < (⌊(T : ℚ) / (n : ℚ)⌋ : ℚ) + 1 := Int.lt_floor_add_one _
  constructor
  · have h3 : ((⌊(T : ℚ) / (n : ℚ)⌋ : ℤ) : ℚ) * (n : ℚ) ≤ (T : ℚ) := by
      rw [← le_div_iff hnq]
      exact h1
    exact_mod_cast h3
  · have h4 : (T : ℚ) < ((⌊(T : ℚ) / (n : ℚ)⌋ : ℚ) + 1) * (n : ℚ) := by
      rw [← div_lt_iff hnq]
      exact h2
    have h5 : (T : ℚ) < ((⌊(T : ℚ) / (n : ℚ)⌋ : ℤ) : ℚ) * (n : ℚ) + (n : ℚ) := by
      nlinarith
    exact_mod_cast h5

/-! ## C7: cent round trip -/

/-- C7: for every finite `x`, `fromCents (toCents x)` equals `x` rounded
to two decimals under round-half-up (`Math.round`) semantics, and for `x`
with at most two decimal places the round trip returns `x` itself. -/
theorem fromCents_toCents_roundTrip (x : ℚ) :
    fromCents (toCents x) = roundHalfUpTo2 x ∧ (IsCent x → fromCents (toCents x) = x) := by
  constructor
  · rw [fromCents_eq, roundHalfUpTo2, toCents]
  · rintro ⟨k, rfl⟩
    rw [toCents_intCast_div, fromCents_eq]

/-- C7 witness: the round trip is the identity on `1.23`. -/
theorem fromCents_toCents_roundTrip_witness :
    fromCents (toCents ((123 : ℚ) / 100)) = (123 : ℚ) / 100 :=
  (fromCents_toCents_roundTrip ((123 : ℚ) / 100)).2 ⟨123, by norm_num⟩

/-! ## C2: even split -/

theorem evenWalk_map_pid (base : ℤ) (l : List String) (r : ℤ) :
    (evenWalk base l r).map ShareCents.participantId = l := by
  induction l generalizing r with
  | nil => rfl
  | cons pid rest ih => simp [evenWalk, ih]

theorem evenWalk_length (base : ℤ) (l : List String) (r : ℤ) :
    (evenWalk base l r).length = l.length := by
  have h := congrArg List.length (evenWalk_map_pid base l r)
  simpa using h

theorem evenWalk_getD (base : ℤ) (l : List String) (r : ℤ) (hr : 0 ≤ r) :
    ∀ i : ℕ, i < l.length →
      (evenWalk base l r).getD i (ShareCents.mk "" 0)
        = ShareCents.mk (l.getD i "") (base + if (i : ℤ) < r then 1 else 0) := by
  induction l generalizing r with
  | nil => intro i hi; simp at hi
  | cons pid rest ih =>
    intro i hi
    match i with
    | 0 =>
      simp only [evenWalk, List.getD_cons_zero]
      norm_num
    | Nat.succ j =>
      simp only [evenWalk, List.getD_cons_succ]
      by_cases h : 0 < r
      · rw [if_pos h]
        have hj : j < rest.length := by simpa using hi
        rw [ih (r - 1) (by omega) j hj]
        by_cases hc : (j : ℤ) < r - 1
        · rw [if_pos hc, if_pos (show ((j.succ : ℕ) : ℤ) < r by push_cast; omega)]
        · rw [if_neg hc, if_neg (show ¬ ((j.succ : ℕ) : ℤ) < r by push_cast; omega)]
      · rw [if_neg h]
        have hr0 : r = 0 := by omega
        subst hr0
        have hj : j < rest.length := by simpa using hi
        rw [ih 0 le_rfl j hj]
        rw [if_neg (show ¬ ((j : ℤ) < 0) by omega),
          if_neg (show ¬ ((j.succ : ℕ) : ℤ) < 0 by push_cast; omega)]

theorem evenWalk_sum (base : ℤ) (l : List String) (r : ℤ) (hr0 : 0 ≤ r)
    (hrl : r ≤ (l.length : ℤ)) :
    ((evenWalk base l r).map ShareCents.cents).sum = base * l.length + r := by
  induction l generalizing r with
  | nil =>
    simp only [List.length_nil, Nat.cast_zero] at hrl
    have : r = 0 := le_antisymm hrl hr0
    subst this
    simp [evenWalk]
  | cons pid rest ih =>
    by_cases h : 0 < r
    · simp only [evenWalk, if_pos h, List.map_cons, List.sum_cons]
      rw [ih (r - 1) (by omega) (by simp at hrl ⊢; push_cast at hrl ⊢; omega)]
      simp only [List.length_cons]
      push_cast
      ring
    · have hr : r = 0 := by omega
      subst hr
      simp only [evenWalk, if_neg h, List.map_cons, List.sum_cons]
      rw [ih 0 le_rfl (by positivity)]
      simp only [List.length_cons]
      push_cast
      ring

theorem evenWalk_cents_mem (base : ℤ) (l : List String) (r : ℤ) :
    ∀ entry ∈ evenWalk base l r, entry.cents = base ∨ entry.cents = base + 1 := by
  induction l generalizing r with
  | nil => intro entry he; simp [evenWalk] at he
  | cons pid rest ih =>
    intro entry he
    rw [evenWalk] at he
    rcases List.mem_cons.mp he with h | h
    · subst h
      by_cases hr : 0 < r <;> simp [hr]
    · exact ih _ entry h

/-- C2: an even split over a non-empty list of `n` participants gives each
participant `⌊total/n⌋` or `⌊total/n⌋ + 1` cents, the first
`total − ⌊total/n⌋·n` participants in the order given receive the extra
cent, and the assigned cents sum to the total exactly. -/
theorem distributeEven_spec (totalCents : ℤ) (participantIds : List String)
    (h : participantIds ≠ []) :
    ((distributeEven totalCents participantIds).map ShareCents.cents).sum = totalCents
    ∧ (distributeEven totalCents participantIds).map ShareCents.participantId = participantIds
    ∧ (∀ i : ℕ, i < participantIds.length →
        ((distributeEven totalCents participantIds).getD i (ShareCents.mk "" 0)).cents
          = ⌊(totalCents : ℚ) / ((participantIds.length : ℤ) : ℚ)⌋
            + if (i : ℤ) < totalCents
                - ⌊(totalCents : ℚ) / ((participantIds.length : ℤ) : ℚ)⌋ * participantIds.length
              then 1 else 0)
    ∧ ∀ entry ∈ distributeEven totalCents participantIds,
        entry.cents = ⌊(totalCents : ℚ) / ((participantIds.length : ℤ) : ℚ)⌋
        ∨ entry.cents = ⌊(totalCents : ℚ) / ((participantIds.length : ℤ) : ℚ)⌋ + 1 := by
  have hlen : 0 < participantIds.length := List.length_pos.mpr h
  have hne : participantIds.length ≠ 0 := Nat.pos_iff_ne_zero.mp hlen
  have hn : (0 : ℤ) < (participantIds.length : ℤ) := by exact_mod_cast hlen
  have hb := floorDiv_bounds totalCents (participantIds.length : ℤ) hn
  have hunfold : distributeEven totalCents participantIds
      = evenWalk ⌊(totalCents : ℚ) / ((participantIds.length : ℤ) : ℚ)⌋ participantIds
          (totalCents
            - ⌊(totalCents : ℚ) / ((participantIds.length : ℤ) : ℚ)⌋ * participantIds.length) := by
    unfold distributeEven
    rw [if_neg hne]
  refine ⟨?_, ?_, ?_, ?_⟩
  · rw [hunfold, evenWalk_sum _ _ _ (by omega) (by omega)]
    ring
  · rw [hunfold, evenWalk_map_pid]
  · intro i hi
    rw [hunfold, evenWalk_getD _ _ _ (by omega) i hi]
  · intro entry he
    rw [hunfold] at he
    exact evenWalk_cents_mem _ _ _ entry he

/-- C2 witness: splitting 1001 cents among three participants. -/
theorem distributeEven_spec_witness :
    ((distributeEven 1001 ["a", "b", "c"]).map ShareCents.cents).sum = 1001 :=
  (distributeEven_spec 1001 ["a", "b", "c"] (by simp)).1

/-! ## C8: even split with zero participants -/

/-- C8 counterexample: with an empty participant list the distributor does
not fail fast — `count = participantIds.length || 1` avoids the division
by zero and the map over no participants returns the empty share list, so
the concrete calls below return normally. -/
theorem distributeEven_empty_counterexample :
    distributeEven 100 [] = []
    ∧ calculateExpenseShares (Expense.mk "e1" 1 [] (SplitInstruction.even [])) = [] := by
  constructor
  · rfl
  · rfl

/-- C8 amended: invoked with an empty `participantIds` list, the even
distributor returns an empty list of shares — the `|| 1` fallback on the
count prevents a division by zero — rather than raising an error. -/
theorem distributeEven_empty (totalCents : ℤ) :
    distributeEven totalCents [] = []
    ∧ ∀ expense : Expense, expense.split = SplitInstruction.even [] →
        calculateExpenseShares expense = [] := by
  constructor
  · rfl
  · intro expense he
    unfold calculateExpenseShares
    rw [he]
    rfl

/-- C8 witness for the amended claim, at total `5.00`. -/
theorem distributeEven_empty_witness :
    calculateExpenseShares (Expense.mk "e2" 5 [] (SplitInstruction.even [])) = [] :=
  (distributeEven_empty 500).2 _ rfl

/-! ## C4: exact split -/

theorem map_map_cents (l : List ExactEntry) :
    ((l.map (fun entry => ShareCents.mk entry.participantId (toCents entry.amount))).map
      ShareCents.cents) = l.map (fun entry => toCents entry.amount) := by
  rw [List.map_map]
  rfl

theorem distributeExact_cons (totalCents : ℤ) (first : ExactEntry) (rest : List ExactEntry) :
    distributeExact totalCents (first :: rest)
      = ShareCents.mk first.participantId
          (toCents first.amount
            + (totalCents - ((first :: rest).map (fun entry => toCents entry.amount)).sum))
        :: rest.map (fun entry => ShareCents.mk entry.participantId (toCents entry.amount)) := by
  simp only [distributeExact, map_map_cents, List.map_cons, List.sum_cons]
  by_cases hd : totalCents - (toCents first.amount
      + (((rest.map (fun entry => toCents entry.amount))).sum)) = 0
  · rw [if_neg (fun hcond => hcond.1 hd)]
    congr 2
    omega
  · rw [if_pos (show _ ∧ _ from ⟨hd, by simp⟩)]

/-- C4: for a non-empty exact split the returned cents sum exactly to the
total; the whole difference between the total and the stated allocations
(in cents) is added to the first allocation and every other allocation is
returned unchanged. -/
theorem distributeExact_spec (totalCents : ℤ) (allocations : List ExactEntry)
    (h : allocations ≠ []) :
    ((distributeExact totalCents allocations).map ShareCents.cents).sum = totalCents
    ∧ (distributeExact totalCents allocations).map ShareCents.participantId
        = allocations.map ExactEntry.participantId
    ∧ ((distributeExact totalCents allocations).getD 0 (ShareCents.mk "" 0)).cents
        = toCents ((allocations.getD 0 (ExactEntry.mk "" 0)).amount)
          + (totalCents - (allocations.map (fun entry => toCents entry.amount)).sum)
    ∧ ∀ i : ℕ, 1 ≤ i → i < allocations.length →
        (distributeExact totalCents allocations).getD i (ShareCents.mk "" 0)
          = ShareCents.mk ((allocations.getD i (ExactEntry.mk "" 0)).participantId)
              (toCents ((allocations.getD i (ExactEntry.mk "" 0)).amount)) := by
  match allocations, h with
  | first :: rest, _ =>
    simp only [distributeExact_cons]
    refine ⟨?_, ?_, ?_, ?_⟩
    · simp only [List.map_cons, List.sum_cons, map_map_cents]
      omega
    · simp only [List.map_cons]
      congr 1
      rw [List.map_map]
      rfl
    · simp only [List.map_cons, List.sum_cons, List.getD_cons_zero]
    · intro i h1 h2
      match i, h1 with
      | Nat.succ j, _ =>
        simp only [List.getD_cons_succ]
        exact getD_map_of_lt _ rest j (by simpa using h2) _ (ExactEntry.mk "" 0)

/-- C4 witness: total `10.00` with stated allocations `4.99` and `5.00`
(sum `9.99 = total − 0.01`): the first allocation absorbs exactly one
cent and the result sums to 1000 cents. -/
theorem distributeExact_spec_witness :
    ((distributeExact 1000 [ExactEntry.mk "a" ((499 : ℚ) / 100),
        ExactEntry.mk "b" 5]).map ShareCents.cents).sum = 1000
    ∧ ((distributeExact 1000 [ExactEntry.mk "a" ((499 : ℚ) / 100),
        ExactEntry.mk "b" 5]).getD 0 (ShareCents.mk "" 0)).cents
        = toCents ((499 : ℚ) / 100) + 1 := by
  have h := distributeExact_spec 1000
    [ExactEntry.mk "a" ((499 : ℚ) / 100), ExactEntry.mk "b" 5] (by simp)
  refine ⟨h.1, ?_⟩
  have h3 := h.2.2.1
  have hc1 : toCents ((499 : ℚ) / 100) = 499 := toCents_intCast_div 499
  have hc2 : toCents (5 : ℚ) = 500 := by
    have : (5 : ℚ) = ((500 : ℤ) : ℚ) / 100 := by norm_num
    rw [this, toCents_intCast_div]
  simp only [List.map_cons, List.map_nil, List.getD_cons_zero, List.sum_cons, List.sum_nil,
    hc1, hc2] at h3 ⊢
  omega

/-! ## C6: receipt allocation of unassigned items -/

theorem receiptFold_unassigned (items : List ReceiptLineItem) (acc : ReceiptAccum) :
    (items.foldl receiptStep acc).unassignedItemIds
      = acc.unassignedItemIds
        ++ (items.filter (fun item => item.assignedParticipantIds = [])).map
            ReceiptLineItem.id := by
  induction items generalizing acc with
  | nil => simp
  | cons item rest ih =>
    simp only [List.foldl_cons, List.filter_cons]
    rw [ih]
    by_cases h : item.assignedParticipantIds = [] <;> simp [receiptStep, h]

theorem receiptFold_total (items : List ReceiptLineItem) (acc : ReceiptAccum) :
    (items.foldl receiptStep acc).totalCents
      = acc.totalCents + (items.map (fun item => toCents item.amount)).sum := by
  induction items generalizing acc with
  | nil => simp
  | cons item rest ih =>
    simp only [List.foldl_cons, List.map_cons, List.sum_cons]
    rw [ih]
    by_cases h : item.assignedParticipantIds = [] <;> simp [receiptStep, h] <;> ring

theorem receiptStep_per_eq (item : ReceiptLineItem) (acc1 acc2 : ReceiptAccum)
    (h : acc1.perParticipantCents = acc2.perParticipantCents) :
    (receiptStep acc1 item).perParticipantCents
      = (receiptStep acc2 item).perParticipantCents := by
  by_cases he : item.assignedParticipantIds = [] <;> simp [receiptStep, he, h]

theorem receiptFold_per_eq (items : List ReceiptLineItem) (acc1 acc2 : ReceiptAccum)
    (h : acc1.perParticipantCents = acc2.perParticipantCents) :
    (items.foldl receiptStep acc1).perParticipantCents
      = (items.foldl receiptStep acc2).perParticipantCents := by
  induction items generalizing acc1 acc2 with
  | nil => exact h
  | cons item rest ih => exact ih _ _ (receiptStep_per_eq item acc1 acc2 h)

/-- C6: a receipt line item whose `assignedParticipantIds` is empty has
its id recorded in `unassignedItemIds`, contributes its amount to the
returned total, and contributes nothing to `perParticipant` (removing it
leaves `perParticipant` unchanged), so the total legitimately includes
amounts that no participant carries. -/
theorem calculateReceiptAllocations_unassigned (l1 l2 : List ReceiptLineItem)
    (item : ReceiptLineItem) (h : item.assignedParticipantIds = []) :
    item.id ∈ (calculateReceiptAllocations (l1 ++ item :: l2)).unassignedItemIds
    ∧ (calculateReceiptAllocations (l1 ++ item :: l2)).perParticipant
        = (calculateReceiptAllocations (l1 ++ l2)).perParticipant
    ∧ (calculateReceiptAllocations (l1 ++ item :: l2)).total
        = round2 (((((l1 ++ l2).map (fun entry => toCents entry.amount)).sum
            + toCents item.amount : ℤ) : ℚ) / 100) := by
  refine ⟨?_, ?_, ?_⟩
  · simp only [calculateReceiptAllocations]
    rw [receiptFold_unassigned]
    simp [h]
  · simp only [calculateReceiptAllocations]
    congr 1
    rw [List.foldl_append, List.foldl_append, List.foldl_cons]
    apply receiptFold_per_eq
    simp [receiptStep, h]
  · simp only [calculateReceiptAllocations]
    rw [receiptFold_total]
    have hsum : ((l1 ++ item :: l2).map (fun entry => toCents entry.amount)).sum
        = ((l1 ++ l2).map (fun entry => toCents entry.amount)).sum + toCents item.amount := by
      simp only [List.map_append, List.sum_append, List.map_cons, List.sum_cons]
      ring
    simp [hsum]
    ring_nf

/-- C6 witness: item `i2` (5.00, unassigned) next to item `i1` (10.00,
assigned to `a`). -/
theorem calculateReceiptAllocations_unassigned_witness :
    "i2" ∈ (calculateReceiptAllocations
        [ReceiptLineItem.mk "i1" "meal" 10 ["a"],
          ReceiptLineItem.mk "i2" "tip" 5 []]).unassignedItemIds
    ∧ (calculateReceiptAllocations
        [ReceiptLineItem.mk "i1" "meal" 10 ["a"],
          ReceiptLineItem.mk "i2" "tip" 5 []]).perParticipant
        = (calculateReceiptAllocations [ReceiptLineItem.mk "i1" "meal" 10 ["a"]]).perParticipant
    ∧ (calculateReceiptAllocations
        [ReceiptLineItem.mk "i1" "meal" 10 ["a"],
          ReceiptLineItem.mk "i2" "tip" 5 []]).total
        = round2 ((((([ReceiptLineItem.mk "i1" "meal" 10 ["a"]].map
            (fun entry => toCents entry.amount)).sum + toCents 5 : ℤ) : ℚ)) / 100) :=
  calculateReceiptAllocations_unassigned [ReceiptLineItem.mk "i1" "meal" 10 ["a"]] []
    (ReceiptLineItem.mk "i2" "tip" 5 []) rfl

/-! ## C3: weighted-shares split -/

theorem addOneWhile_sum (l : List ShareCents) (r : ℤ) (hr0 : 0 ≤ r)
    (hrl : r ≤ (l.length : ℤ)) :
    ((addOneWhile l r).map ShareCents.cents).sum = (l.map ShareCents.cents).sum + r := by
  induction l generalizing r with
  | nil =>
    simp only [List.length_nil, Nat.cast_zero] at hrl
    have : r = 0 := le_antisymm hrl hr0
    subst this
    simp [addOneWhile]
  | cons entry rest ih =>
    by_cases h : 0 < r
    · simp only [addOneWhile, if_pos h, List.map_cons, List.sum_cons]
      rw [ih (r - 1) (by omega) (by simp only [List.length_cons] at hrl; push_cast at hrl ⊢; omega)]
      ring
    · have : r = 0 := by omega
      subst this
      simp [addOneWhile]

theorem addOneWhile_getD (l : List ShareCents) (r : ℤ) (hr0 : 0 ≤ r) :
    ∀ i : ℕ, i < l.length →
      (addOneWhile l r).getD i (ShareCents.mk "" 0)
        = ShareCents.mk ((l.getD i (ShareCents.mk "" 0)).participantId)
            ((l.getD i (ShareCents.mk "" 0)).cents + if (i : ℤ) < r then 1 else 0) := by
  induction l generalizing r with
  | nil => intro i hi; simp at hi
  | cons entry rest ih =>
    intro i hi
    by_cases h : 0 < r
    · simp only [addOneWhile, if_pos h]
      match i with
      | 0 =>
        simp only [List.getD_cons_zero]
        rw [if_pos (by exact_mod_cast h)]
      | Nat.succ j =>
        simp only [List.getD_cons_succ]
        rw [ih (r - 1) (by omega) j (by simpa using hi)]
        by_cases hc : (j : ℤ) < r - 1
        · rw [if_pos hc, if_pos (show ((j.succ : ℕ) : ℤ) < r by push_cast; omega)]
        · rw [if_neg hc, if_neg (show ¬ ((j.succ : ℕ) : ℤ) < r by push_cast; omega)]
    · have : r = 0 := by omega
      subst this
      simp only [addOneWhile, if_neg h]
      rw [if_neg (show ¬ ((i : ℤ) < 0) by omega)]
      simp

theorem addOneWhile_mem (l : List ShareCents) (r : ℤ) :
    ∀ entry ∈ addOneWhile l r, ∃ orig ∈ l,
      entry.participantId = orig.participantId
      ∧ (entry.cents = orig.cents ∨ entry.cents = orig.cents + 1) := by
  induction l generalizing r with
  | nil => intro entry he; simp [addOneWhile] at he
  | cons head rest ih =>
    intro entry he
    by_cases h : 0 < r
    · simp only [addOneWhile, if_pos h] at he
      rcases List.mem_cons.mp he with h0 | h0

      · exact ⟨head, List.mem_cons_self head rest, by rw [h0], Or.inr (by rw [h0])⟩
      · obtain ⟨orig, ho, hpid, hc⟩ := ih (r - 1) entry h0
        exact ⟨orig, List.mem_cons_of_mem head ho, hpid, hc⟩
    · simp only [addOneWhile, if_neg h] at he
      exact ⟨entry, he, rfl, Or.inl rfl⟩

theorem sum_intCast_list (l : List ℤ) :
    ((l.sum : ℤ) : ℚ) = (l.map (Int.cast : ℤ → ℚ)).sum := by
  induction l with
  | nil => simp
  | cons a rest ih =>
    simp only [List.sum_cons, List.map_cons]
    rw [Int.cast_add, ih]

theorem sum_map_add_one_q {α : Type} (l : List α) (f : α → ℚ) :
    (l.map (fun s => f s + 1)).sum = (l.map f).sum + (l.length : ℚ) := by
  induction l with
  | nil => simp
  | cons a rest ih => simp only [List.sum_cons, List.map_cons, List.length_cons, ih]; push_cast; ring

theorem positivePart_weight_pos (shares : List ShareEntry) :
    ∀ share ∈ positivePart shares, 0 < share.weight := by
  intro share hs
  have := List.mem_filter.mp hs
  simpa using this.2

theorem positivePart_totalWeight_pos (shares : List ShareEntry)
    (h : positivePart shares ≠ []) :
    0 < ((positivePart shares).map ShareEntry.weight).sum := by
  apply List.sum_pos
  · intro x hx
    obtain ⟨share, hs, rfl⟩ := List.mem_map.mp hx
    exact positivePart_weight_pos shares share hs
  · simpa using h

theorem exact_shares_sum (T : ℤ) (pos : List ShareEntry) (hpos : pos ≠ [])
    (hw : ∀ s ∈ pos, 0 < s.weight) :
    (pos.map (fun share => share.weight / (pos.map ShareEntry.weight).sum * (T : ℚ))).sum
      = (T : ℚ) := by
  have hW : 0 < (pos.map ShareEntry.weight).sum := by
    apply List.sum_pos
    · intro x hx
      obtain ⟨share, hs, rfl⟩ := List.mem_map.mp hx
      exact hw share hs
    · simpa using hpos
  have hcongr : pos.map (fun share => share.weight / (pos.map ShareEntry.weight).sum * (T : ℚ))
      = pos.map (fun share => share.weight * ((T : ℚ) / (pos.map ShareEntry.weight).sum)) := by
    apply List.map_congr_left
    intro share _
    ring
  rw [hcongr, List.sum_map_mul_right]
  field_simp

theorem flooredShares_eq (T : ℤ) (shares : List ShareEntry) :
    flooredShares T shares = (positivePart shares).map (fun share =>
      FlooredShare.mk share.participantId
        ⌊share.weight / ((positivePart shares).map ShareEntry.weight).sum * (T : ℚ)⌋
        (share.weight / ((positivePart shares).map ShareEntry.weight).sum * (T : ℚ)
          - ⌊share.weight / ((positivePart shares).map ShareEntry.weight).sum * (T : ℚ)⌋)) := by
  simp only [flooredShares]

theorem sharesRemainder_bounds (T : ℤ) (shares : List ShareEntry)
    (h : positivePart shares ≠ []) :
    0 ≤ sharesRemainder T shares
      ∧ sharesRemainder T shares < ((positivePart shares).length : ℤ) := by
  have hw := positivePart_weight_pos shares
  have hcents : (flooredShares T shares).map FlooredShare.cents
      = (positivePart shares).map (fun share =>
          ⌊share.weight / ((positivePart shares).map ShareEntry.weight).sum * (T : ℚ)⌋) := by
    rw [flooredShares_eq, List.map_map]
    rfl
  have hallocQ : ((((flooredShares T shares).map FlooredShare.cents).sum : ℤ) : ℚ)
      = ((positivePart shares).map (fun share =>
          (⌊share.weight / ((positivePart shares).map ShareEntry.weight).sum * (T : ℚ)⌋ : ℚ))).sum := by
    rw [hcents, sum_intCast_list, List.map_map]
    rfl
  have hle : ((((flooredShares T shares).map FlooredShare.cents).sum : ℤ) : ℚ) ≤ (T : ℚ) := by
    rw [hallocQ]
    calc ((positivePart shares).map (fun share =>
          (⌊share.weight / ((positivePart shares).map ShareEntry.weight).sum * (T : ℚ)⌋ : ℚ))).sum
        ≤ ((positivePart shares).map (fun share =>
            share.weight / ((positivePart shares).map ShareEntry.weight).sum * (T : ℚ))).sum := by
          apply List.sum_le_sum
          intro share _
          exact Int.floor_le _
      _ = (T : ℚ) := exact_shares_sum T (positivePart shares) h hw
  have hlt : (T : ℚ) < ((((flooredShares T shares).map FlooredShare.cents).sum : ℤ) : ℚ)
      + ((positivePart shares).length : ℚ) := by
    rw [hallocQ]
    have hstep : ((positivePart shares).map (fun share =>
        share.weight / ((positivePart shares).map ShareEntry.weight).sum * (T : ℚ))).sum
        < ((positivePart shares).map (fun share =>
            (⌊share.weight / ((positivePart shares).map ShareEntry.weight).sum * (T : ℚ)⌋ : ℚ)
              + 1)).sum := by
      apply List.sum_lt_sum
      · intro share _
        exact le_of_lt (Int.lt_floor_add_one _)
      · match positivePart shares, h with
        | share :: restPos, _ =>
          exact ⟨share, List.mem_cons_self share restPos, Int.lt_floor_add_one _⟩
    rw [exact_shares_sum T (positivePart shares) h hw] at hstep
    calc (T : ℚ) < ((positivePart shares).map (fun share =>
            (⌊share.weight / ((positivePart shares).map ShareEntry.weight).sum * (T : ℚ)⌋ : ℚ)
              + 1)).sum := hstep
      _ = ((positivePart shares).map (fun share =>
            (⌊share.weight / ((positivePart shares).map ShareEntry.weight).sum * (T : ℚ)⌋ : ℚ))).sum
          + ((positivePart shares).length : ℚ) := sum_map_add_one_q _ _
  constructor
  · have : (((flooredShares T shares).map FlooredShare.cents).sum : ℚ) ≤ (T : ℚ) := hle
    have hz : ((flooredShares T shares).map FlooredShare.cents).sum ≤ T := by exact_mod_cast this
    unfold sharesRemainder
    omega
  · have hz : (T : ℚ) < ((((flooredShares T shares).map FlooredShare.cents).sum
        + (positivePart shares).length : ℤ) : ℚ) := by
      push_cast
      push_cast at hlt
      linarith
    have : T < ((flooredShares T shares).map FlooredShare.cents).sum
        + ((positivePart shares).length : ℤ) := by exact_mod_cast hz
    unfold sharesRemainder
    omega

theorem sortedFloored_perm (T : ℤ) (shares : List ShareEntry) :
    (sortedFloored T shares).Perm (flooredShares T shares) :=
  List.perm_insertionSort fracGe (flooredShares T shares)

theorem sortedFloored_cents_sum (T : ℤ) (shares : List ShareEntry) :
    ((sortedFloored T shares).map FlooredShare.cents).sum
      = ((flooredShares T shares).map FlooredShare.cents).sum :=
  ((sortedFloored_perm T shares).map FlooredShare.cents).sum_eq

theorem sortedFloored_length (T : ℤ) (shares : List ShareEntry) :
    (sortedFloored T shares).length = (positivePart shares).length := by
  rw [(sortedFloored_perm T shares).length_eq, flooredShares_eq, List.length_map]

/-- C3: with at least one positive weight the weighted-shares distribution
sums exactly to the total; each output entry belongs to a positive-weight
share and carries the floor of its ideal fractional share or that plus
one; the leftover `sharesRemainder` cents (nonnegative, fewer than the
number of positive shares) go one-by-one to the head of the stable
descending-fractional-remainder order, ties keeping original order; with
no positive weight the result falls back to an even split over all the
originally listed participant ids. -/
theorem distributeShares_spec (totalCents : ℤ) (shares : List ShareEntry) :
    (positivePart shares = [] →
      distributeShares totalCents shares
        = distributeEven totalCents (shares.map ShareEntry.participantId))
    ∧ (positivePart shares ≠ [] →
        ((distributeShares totalCents shares).map ShareCents.cents).sum = totalCents
        ∧ 0 ≤ sharesRemainder totalCents shares
        ∧ sharesRemainder totalCents shares < ((positivePart shares).length : ℤ)
        ∧ (∀ entry ∈ distributeShares totalCents shares,
            ∃ share ∈ positivePart shares,
              entry.participantId = share.participantId
              ∧ (entry.cents
                  = ⌊share.weight / ((positivePart shares).map ShareEntry.weight).sum
                      * (totalCents : ℚ)⌋
                ∨ entry.cents
                  = ⌊share.weight / ((positivePart shares).map ShareEntry.weight).sum
                      * (totalCents : ℚ)⌋ + 1))
        ∧ (∀ i : ℕ, i < (positivePart shares).length →
            (distributeShares totalCents shares).getD i (ShareCents.mk "" 0)
              = ShareCents.mk
                  (((sortedFloored totalCents shares).getD i
                    (FlooredShare.mk "" 0 0)).participantId)
                  ((((sortedFloored totalCents shares).getD i
                    (FlooredShare.mk "" 0 0)).cents)
                    + if (i : ℤ) < sharesRemainder totalCents shares then 1 else 0))
        ∧ List.Sorted fracGe (sortedFloored totalCents shares)
        ∧ ∀ q : ℚ, ((flooredShares totalCents shares).filter
            (fun entry => entry.fraction = q)).Sublist (sortedFloored totalCents shares)) := by
  constructor
  · intro h
    simp only [distributeShares, if_pos h]
  · intro h
    obtain ⟨hr0, hrlt⟩ := sharesRemainder_bounds totalCents shares h
    have hunfold : distributeShares totalCents shares
        = addOneWhile ((sortedFloored totalCents shares).map (fun entry =>
            ShareCents.mk entry.participantId entry.cents)) (sharesRemainder totalCents shares) := by
      simp only [distributeShares, if_neg h]
    have hlen : ((sortedFloored totalCents shares).map (fun entry =>
        ShareCents.mk entry.participantId entry.cents)).length
        = (positivePart shares).length := by
      rw [List.length_map, sortedFloored_length]
    refine ⟨?_, hr0, hrlt, ?_, ?_, ?_, ?_⟩
    · rw [hunfold, addOneWhile_sum _ _ hr0 (by rw [hlen]; omega)]
      have hmm : (((sortedFloored totalCents shares).map (fun entry =>
          ShareCents.mk entry.participantId entry.cents)).map ShareCents.cents).sum
          = ((sortedFloored totalCents shares).map FlooredShare.cents).sum := by
        rw [List.map_map]
        rfl
      rw [hmm, sortedFloored_cents_sum]
      unfold sharesRemainder
      ring
    · intro entry he
      rw [hunfold] at he
      obtain ⟨orig, ho, hpid, hcents⟩ := addOneWhile_mem _ _ entry he
      obtain ⟨fs, hfs, rfl⟩ := List.mem_map.mp ho
      have hfs2 : fs ∈ flooredShares totalCents shares := (sortedFloored_perm _ _).mem_iff.mp hfs
      rw [flooredShares_eq] at hfs2
      obtain ⟨share, hshare, rfl⟩ := List.mem_map.mp hfs2
      exact ⟨share, hshare, hpid, by simpa using hcents⟩
    · intro i hi
      rw [hunfold, addOneWhile_getD _ _ hr0 i (by rw [hlen]; exact hi)]
      rw [getD_map_of_lt _ _ i (by rw [sortedFloored_length]; exact hi) _ (FlooredShare.mk "" 0 0)]
    · exact List.sorted_insertionSort fracGe (flooredShares totalCents shares)
    · intro q
      apply List.sublist_insertionSort
      · apply List.pairwise_of_forall_mem_list
        intro a ha b hb
        have ha2 := (List.mem_filter.mp ha).2
        have hb2 := (List.mem_filter.mp hb).2
        have ha3 : a.fraction = q := by simpa using ha2
        have hb3 : b.fraction = q := by simpa using hb2
        unfold fracGe
        rw [ha3, hb3]
      · exact List.filter_sublist _

/-- C3 witness: total 75.00 with weights a:2, b:1, c:1 (the repository's
own test scenario). -/
theorem distributeShares_spec_witness :
    ((distributeShares 7500 [ShareEntry.mk "a" 2, ShareEntry.mk "b" 1,
        ShareEntry.mk "c" 1]).map ShareCents.cents).sum = 7500 :=
  ((distributeShares_spec 7500 [ShareEntry.mk "a" 2, ShareEntry.mk "b" 1,
      ShareEntry.mk "c" 1]).2 (by simp [positivePart])).1

/-! ## C9: termination and settlement-count bound -/

theorem getD_mem {α : Type} (l : List α) (i : ℕ) (hi : i < l.length) (d : α) :
    l.getD i d ∈ l := by
  rw [List.getD_eq_getElem l d hi]
  exact List.getElem_mem hi

theorem settleStep_lengths (tolerance : ℚ) (s : SettleState) :
    (settleStep tolerance s).creditors.length = s.creditors.length
    ∧ (settleStep tolerance s).debtors.length = s.debtors.length := by
  simp [settleStep]

theorem settleStep_settlements_length (tolerance : ℚ) (s : SettleState) :
    (settleStep tolerance s).settlements.length = s.settlements.length + 1 := by
  simp [settleStep]

theorem settleStep_index_bounds (tolerance : ℚ) (s : SettleState) :
    (s.creditorIndex ≤ (settleStep tolerance s).creditorIndex
      ∧ (settleStep tolerance s).creditorIndex ≤ s.creditorIndex + 1)
    ∧ (s.debtorIndex ≤ (settleStep tolerance s).debtorIndex
      ∧ (settleStep tolerance s).debtorIndex ≤ s.debtorIndex + 1) := by
  simp only [settleStep]
  refine ⟨⟨?_, ?_⟩, ⟨?_, ?_⟩⟩ <;> split <;> omega

theorem settleStep_debtors_nonpos (tolerance : ℚ) (s : SettleState)
    (hd : ∀ b ∈ s.debtors, b.net ≤ 0) :
    ∀ b ∈ (settleStep tolerance s).debtors, b.net ≤ 0 := by
  intro b hb
  simp only [settleStep] at hb
  rcases List.mem_or_eq_of_mem_set hb with h | h
  · exact hd b h
  · subst h
    apply round2_nonpos
    have hdn : (s.debtors.getD s.debtorIndex default).net ≤ 0 := by
      by_cases hlt : s.debtorIndex < s.debtors.length
      · exact hd _ (getD_mem s.debtors s.debtorIndex hlt default)
      · rw [List.getD_eq_default _ _ (by omega)]
        exact le_refl 0
    have hq : qabs (s.debtors.getD s.debtorIndex default).net
        = -(s.debtors.getD s.debtorIndex default).net := qabs_of_nonpos hdn
    have hmin : min (s.creditors.getD s.creditorIndex default).net
        (qabs (s.debtors.getD s.debtorIndex default).net)
        ≤ -(s.debtors.getD s.debtorIndex default).net := by
      rw [hq]
      exact min_le_right _ _
    linarith

theorem settleStep_advances (tolerance : ℚ) (htol : 0 ≤ tolerance) (s : SettleState)
    (hdn : ∀ b ∈ s.debtors, b.net ≤ 0) :
    s.creditorIndex < (settleStep tolerance s).creditorIndex
    ∨ s.debtorIndex < (settleStep tolerance s).debtorIndex := by
  simp only [settleStep]
  rcases min_choice (s.creditors.getD s.creditorIndex default).net
      (qabs (s.debtors.getD s.debtorIndex default).net) with hmin | hmin
  · left
    rw [hmin]
    rw [if_pos (by rw [sub_self, round2_zero]; exact htol)]
    omega
  · right
    rw [hmin]
    have hdn2 : (s.debtors.getD s.debtorIndex default).net ≤ 0 := by
      by_cases hlt : s.debtorIndex < s.debtors.length
      · exact hdn _ (getD_mem s.debtors s.debtorIndex hlt default)
      · rw [List.getD_eq_default _ _ (by omega)]
        exact le_refl 0
    rw [qabs_of_nonpos hdn2, add_neg_cancel, round2_zero]
    rw [if_pos (by rw [qabs, if_neg (lt_irrefl 0)]; exact htol)]
    omega

theorem settleLoop_reaches_done (tolerance : ℚ) (htol : 0 ≤ tolerance) :
    ∀ (fuel : ℕ) (s : SettleState), (∀ b ∈ s.debtors, b.net ≤ 0) → pending s ≤ fuel →
      settleDone (settleLoop tolerance fuel s)
      ∧ (settleLoop tolerance fuel s).settlements.length
          ≤ s.settlements.length + (pending s - 1) := by
  intro fuel
  induction fuel with
  | zero =>
    intro s hd hp
    have hdone : settleDone s := by
      unfold pending at hp
      unfold settleDone
      omega
    exact ⟨by simpa [settleLoop] using hdone, by simp [settleLoop]⟩
  | succ n ih =>
    intro s hd hp
    by_cases hdone : settleDone s
    · rw [settleLoop, if_pos hdone]
      exact ⟨hdone, by omega⟩
    · rw [settleLoop, if_neg hdone]
      have hadv := settleStep_advances tolerance htol s hd
      have hlen := settleStep_lengths tolerance s
      have hib := settleStep_index_bounds tolerance s
      have hnd : s.creditorIndex < s.creditors.length
          ∧ s.debtorIndex < s.debtors.length := by
        unfold settleDone at hdone
        omega
      have hpend : pending (settleStep tolerance s) < pending s := by
        unfold pending
        omega
      have h2 : 2 ≤ pending s := by
        unfold pending
        omega
      obtain ⟨hdone2, hlen2⟩ := ih (settleStep tolerance s)
        (settleStep_debtors_nonpos tolerance s hd) (by omega)
      refine ⟨hdone2, ?_⟩
      have hsl := settleStep_settlements_length tolerance s
      omega

/-- C9 amended: for every balance list and every **nonnegative** tolerance
the settlement loop terminates — each iteration advances the creditor
pointer or the debtor pointer (or both), so `creditors + debtors` fuel
reaches the exit — and it returns at most
`creditors.length + debtors.length − 1` settlements when both partitions
are non-empty and `0` settlements otherwise.  (A negative tolerance makes
the source loop diverge; see the counterexample.) -/
theorem suggestSettlements_terminates (balances : List ParticipantBalance) (tolerance : ℚ)
    (htol : 0 ≤ tolerance) :
    settleDone (settleLoop tolerance
      ((initialSettleState balances tolerance).creditors.length
        + (initialSettleState balances tolerance).debtors.length)
      (initialSettleState balances tolerance))
    ∧ ((initialSettleState balances tolerance).creditors ≠ [] →
        (initialSettleState balances tolerance).debtors ≠ [] →
        (suggestSettlements balances tolerance).length
          ≤ (initialSettleState balances tolerance).creditors.length
            + (initialSettleState balances tolerance).debtors.length - 1)
    ∧ ((initialSettleState balances tolerance).creditors = []
        ∨ (initialSettleState balances tolerance).debtors = [] →
        suggestSettlements balances tolerance = []) := by
  have hdn : ∀ b ∈ (initialSettleState balances tolerance).debtors, b.net ≤ 0 := by
    intro b hb
    simp only [initialSettleState] at hb
    have hb2 := (List.perm_insertionSort netLe _).mem_iff.mp hb
    have hb3 := (List.mem_filter.mp hb2).2
    have hb4 : b.net < -tolerance := by simpa using hb3
    linarith
  have hpend : pending (initialSettleState balances tolerance)
      = (initialSettleState balances tolerance).creditors.length
        + (initialSettleState balances tolerance).debtors.length := by
    simp [pending, initialSettleState]
  obtain ⟨hdone, hcount⟩ := settleLoop_reaches_done tolerance htol
    ((initialSettleState balances tolerance).creditors.length
      + (initialSettleState balances tolerance).debtors.length)
    (initialSettleState balances tolerance) hdn (by omega)
  refine ⟨hdone, ?_, ?_⟩
  · intro hc hdne
    have hc1 : 1 ≤ (initialSettleState balances tolerance).creditors.length :=
      List.length_pos.mpr hc
    have hd1 : 1 ≤ (initialSettleState balances tolerance).debtors.length :=
      List.length_pos.mpr hdne
    have hs0 : (initialSettleState balances tolerance).settlements.length = 0 := by
      simp [initialSettleState]
    rw [hs0, hpend] at hcount
    simp only [suggestSettlements]
    omega
  · intro hor
    have hd0 : settleDone (initialSettleState balances tolerance) := by
      unfold settleDone
      rcases hor with h | h
      · exact Or.inl (by rw [h]; simp)
      · exact Or.inr (by rw [h]; simp)
    simp only [suggestSettlements]
    have hall : ∀ fuel : ℕ,
        (settleLoop tolerance fuel (initialSettleState balances tolerance)).settlements = [] := by
      intro fuel
      cases fuel with
      | zero => simp [settleLoop, initialSettleState]
      | succ n =>
        rw [settleLoop, if_pos hd0]
        simp [initialSettleState]
    exact hall _

/-- C9 witness: two balances `+0.02` / `−0.02` at tolerance `0.01`: at
most one settlement is produced. -/
theorem suggestSettlements_terminates_witness :
    (suggestSettlements [ParticipantBalance.mk "a" 0 0 ((2 : ℚ) / 100),
        ParticipantBalance.mk "b" 0 0 (-((2 : ℚ) / 100))] ((1 : ℚ) / 100)).length
      ≤ (initialSettleState [ParticipantBalance.mk "a" 0 0 ((2 : ℚ) / 100),
          ParticipantBalance.mk "b" 0 0 (-((2 : ℚ) / 100))] ((1 : ℚ) / 100)).creditors.length
        + (initialSettleState [ParticipantBalance.mk "a" 0 0 ((2 : ℚ) / 100),
            ParticipantBalance.mk "b" 0 0 (-((2 : ℚ) / 100))] ((1 : ℚ) / 100)).debtors.length
        - 1 :=
  (suggestSettlements_terminates _ _ (by norm_num)).2.1
    (by norm_num [initialSettleState, List.insertionSort, List.orderedInsert, netGe, netLe])
    (by norm_num [initialSettleState, List.insertionSort, List.orderedInsert, netGe, netLe])

theorem settleLoop_fixed_at_zero (fuel : ℕ) :
    ∀ s : SettleState,
      s.creditors = [ParticipantBalance.mk "a" 0 0 0] →
      s.debtors = [ParticipantBalance.mk "a" 0 0 0] →
      s.creditorIndex = 0 → s.debtorIndex = 0 →
      (settleLoop (-1) fuel s).creditors = [ParticipantBalance.mk "a" 0 0 0]
      ∧ (settleLoop (-1) fuel s).debtors = [ParticipantBalance.mk "a" 0 0 0]
      ∧ (settleLoop (-1) fuel s).creditorIndex = 0
      ∧ (settleLoop (-1) fuel s).debtorIndex = 0 := by
  induction fuel with
  | zero =>
    intro s hc hd hci hdi
    simp [settleLoop, hc, hd, hci, hdi]
  | succ n ih =>
    intro s hc hd hci hdi
    have hq0 : qabs (0 : ℚ) = 0 := by rw [qabs, if_neg (lt_irrefl 0)]
    have hne : ¬ ((0 : ℚ) ≤ -1) := by norm_num
    have hstep : settleStep (-1) s
        = SettleState.mk [ParticipantBalance.mk "a" 0 0 0] [ParticipantBalance.mk "a" 0 0 0] 0 0
            (s.settlements ++ [Settlement.mk "a" "a" 0]) := by
      simp only [settleStep, hc, hd, hci, hdi, List.getD_cons_zero, List.set_cons_zero,
        hq0, min_self, sub_self, add_zero, round2_zero, if_neg hne]
    rw [settleLoop, if_neg (by unfold settleDone; rw [hc, hd, hci, hdi]; simp)]
    rw [hstep]
    exact ih _ rfl rfl rfl rfl

/-- C9 counterexample: at tolerance `−1` with the single zero-net balance
`a`, the loop guard never fails — `a` is simultaneously a "creditor"
(`0 > −1`) and a "debtor" (`0 < 1`), each iteration transfers `0` and
leaves both residuals `0`, and `0 ≤ −1` never advances a pointer — so
the source `while` loop runs forever: `suggestSettlements` does not
terminate for every tolerance. -/
theorem suggestSettlements_neg_tolerance_diverges :
    settleNeverDone [ParticipantBalance.mk "a" 0 0 0] (-1) := by
  intro fuel
  have hinit : initialSettleState [ParticipantBalance.mk "a" 0 0 0] (-1)
      = SettleState.mk [ParticipantBalance.mk "a" 0 0 0]
          [ParticipantBalance.mk "a" 0 0 0] 0 0 [] := by
    unfold initialSettleState
    norm_num [List.insertionSort, List.orderedInsert]
  rw [hinit]
  obtain ⟨hc, hd, hci, hdi⟩ := settleLoop_fixed_at_zero fuel
    (SettleState.mk [ParticipantBalance.mk "a" 0 0 0]
      [ParticipantBalance.mk "a" 0 0 0] 0 0 []) rfl rfl rfl rfl
  intro hdone
  unfold settleDone at hdone
  rw [hc, hd, hci, hdi] at hdone
  simp at hdone

/-! ## C10: every emitted settlement exceeds the tolerance -/

theorem getD_set_eq {α : Type} :
    ∀ (l : List α) (i : ℕ), i < l.length → ∀ v d : α, (l.set i v).getD i d = v := by
  intro l
  induction l with
  | nil => intro i hi; simp at hi
  | cons a rest ih =>
    intro i hi v d
    cases i with
    | zero => simp
    | succ j =>
      simp only [List.set_cons_succ, List.getD_cons_succ]
      exact ih j (by simpa using hi) v d

theorem getD_set_ne {α : Type} :
    ∀ (l : List α) (i j : ℕ), i ≠ j → ∀ v d : α, (l.set i v).getD j d = l.getD j d := by
  intro l
  induction l with
  | nil => intro i j hij v d; simp
  | cons a rest ih =>
    intro i j hij v d
    cases i with
    | zero =>
      cases j with
      | zero => exact absurd rfl hij
      | succ k => simp
    | succ m =>
      cases j with
      | zero => simp
      | succ k =>
        simp only [List.set_cons_succ, List.getD_cons_succ]
        exact ih m k (by omega) v d

theorem settleStep_netInv (tolerance : ℚ) (htol : 0 ≤ tolerance) (s : SettleState)
    (hnd : ¬ settleDone s) (inv : NetInv tolerance s) :
    NetInv tolerance (settleStep tolerance s) := by
  have hci : s.creditorIndex < s.creditors.length := by
    unfold settleDone at hnd
    omega
  have hdi : s.debtorIndex < s.debtors.length := by
    unfold settleDone at hnd
    omega
  have hcnet : tolerance < (s.creditors.getD s.creditorIndex default).net :=
    inv.cred_pending _ le_rfl hci
  have hdnet : (s.debtors.getD s.debtorIndex default).net < -tolerance :=
    inv.debt_pending _ le_rfl hdi
  have hccent : IsCent (s.creditors.getD s.creditorIndex default).net :=
    inv.cred_cent _ (getD_mem _ _ hci default)
  have hdcent : IsCent (s.debtors.getD s.debtorIndex default).net :=
    inv.debt_cent _ (getD_mem _ _ hdi default)
  have hdneg : (s.debtors.getD s.debtorIndex default).net ≤ 0 := by linarith
  have hqd : qabs (s.debtors.getD s.debtorIndex default).net
      = -(s.debtors.getD s.debtorIndex default).net := qabs_of_nonpos hdneg
  have hamount_cent : IsCent (min (s.creditors.getD s.creditorIndex default).net
      (qabs (s.debtors.getD s.debtorIndex default).net)) :=
    isCent_min hccent (isCent_qabs hdcent)
  have hamount_tol : tolerance < min (s.creditors.getD s.creditorIndex default).net
      (qabs (s.debtors.getD s.debtorIndex default).net) := by
    rw [hqd]
    exact lt_min hcnet (by linarith)
  have hamount_le_c : min (s.creditors.getD s.creditorIndex default).net
      (qabs (s.debtors.getD s.debtorIndex default).net)
      ≤ (s.creditors.getD s.creditorIndex default).net := min_le_left _ _
  have hamount_le_d : min (s.creditors.getD s.creditorIndex default).net
      (qabs (s.debtors.getD s.debtorIndex default).net)
      ≤ -(s.debtors.getD s.debtorIndex default).net := by
    rw [hqd]
    exact min_le_right _ _
  have hcnew : round2 ((s.creditors.getD s.creditorIndex default).net
      - min (s.creditors.getD s.creditorIndex default).net
          (qabs (s.debtors.getD s.debtorIndex default).net))
      = (s.creditors.getD s.creditorIndex default).net
        - min (s.creditors.getD s.creditorIndex default).net
            (qabs (s.debtors.getD s.debtorIndex default).net) :=
    round2_eq_of_isCent (isCent_sub hccent hamount_cent)
  have hdnew : round2 ((s.debtors.getD s.debtorIndex default).net
      + min (s.creditors.getD s.creditorIndex default).net
          (qabs (s.debtors.getD s.debtorIndex default).net))
      = (s.debtors.getD s.debtorIndex default).net
        + min (s.creditors.getD s.creditorIndex default).net
            (qabs (s.debtors.getD s.debtorIndex default).net) :=
    round2_eq_of_isCent (isCent_add hdcent hamount_cent)
  refine ⟨?_, ?_, ?_, ?_, ?_, ?_, ?_⟩
  · intro j hj1 hj2
    simp only [settleStep, List.length_set] at hj2
    simp only [settleStep] at hj1 ⊢
    by_cases hadv : round2 ((s.creditors.getD s.creditorIndex default).net
        - min (s.creditors.getD s.creditorIndex default).net
            (qabs (s.debtors.getD s.debtorIndex default).net)) ≤ tolerance
    · rw [if_pos hadv] at hj1
      rw [getD_set_ne _ _ _ (by omega) _ _]
      exact inv.cred_pending j (by omega) hj2
    · rw [if_neg hadv] at hj1
      by_cases hje : j = s.creditorIndex
      · subst hje
        rw [getD_set_eq _ _ hci _ _]
        exact lt_of_not_le hadv
      · rw [getD_set_ne _ _ _ (by omega) _ _]
        exact inv.cred_pending j (by omega) hj2
  · intro j hj1 hj2
    simp only [settleStep, List.length_set] at hj2
    simp only [settleStep] at hj1 ⊢
    by_cases hadv : qabs (round2 ((s.debtors.getD s.debtorIndex default).net
        + min (s.creditors.getD s.creditorIndex default).net
            (qabs (s.debtors.getD s.debtorIndex default).net))) ≤ tolerance
    · rw [if_pos hadv] at hj1
      rw [getD_set_ne _ _ _ (by omega) _ _]
      exact inv.debt_pending j (by omega) hj2
    · rw [if_neg hadv] at hj1
      by_cases hje : j = s.debtorIndex
      · subst hje
        rw [getD_set_eq _ _ hdi _ _]
        dsimp only
        have hnp : round2 ((s.debtors.getD s.debtorIndex default).net
            + min (s.creditors.getD s.creditorIndex default).net
                (qabs (s.debtors.getD s.debtorIndex default).net)) ≤ 0 := by
          rw [hdnew]
          linarith
        have hgt := lt_of_not_le hadv
        rw [qabs_of_nonpos hnp] at hgt
        linarith
      · rw [getD_set_ne _ _ _ (by omega) _ _]
        exact inv.debt_pending j (by omega) hj2
  · intro j hj1 hj2
    simp only [settleStep, List.length_set] at hj2
    simp only [settleStep] at hj1 ⊢
    by_cases hadv : round2 ((s.creditors.getD s.creditorIndex default).net
        - min (s.creditors.getD s.creditorIndex default).net
            (qabs (s.debtors.getD s.debtorIndex default).net)) ≤ tolerance
    · rw [if_pos hadv] at hj1
      by_cases hje : j = s.creditorIndex
      · subst hje
        rw [getD_set_eq _ _ hci _ _]
        dsimp only
        rw [hcnew]
        refine ⟨?_, by rw [hcnew] at hadv; linarith⟩
        linarith
      · rw [getD_set_ne _ _ _ (by omega) _ _]
        exact inv.cred_done j (by omega) hj2
    · rw [if_neg hadv] at hj1
      rw [getD_set_ne _ _ _ (by omega) _ _]
      exact inv.cred_done j (by omega) hj2
  · intro j hj1 hj2
    simp only [settleStep, List.length_set] at hj2
    simp only [settleStep] at hj1 ⊢
    by_cases hadv : qabs (round2 ((s.debtors.getD s.debtorIndex default).net
        + min (s.creditors.getD s.creditorIndex default).net
            (qabs (s.debtors.getD s.debtorIndex default).net))) ≤ tolerance
    · rw [if_pos hadv] at hj1
      by_cases hje : j = s.debtorIndex
      · subst hje
        rw [getD_set_eq _ _ hdi _ _]
        dsimp only
        have hnp : round2 ((s.debtors.getD s.debtorIndex default).net
            + min (s.creditors.getD s.creditorIndex default).net
                (qabs (s.debtors.getD s.debtorIndex default).net)) ≤ 0 := by
          rw [hdnew]
          linarith
        rw [qabs_of_nonpos hnp] at hadv
        exact ⟨by linarith, hnp⟩
      · rw [getD_set_ne _ _ _ (by omega) _ _]
        exact inv.debt_done j (by omega) hj2
    · rw [if_neg hadv] at hj1
      rw [getD_set_ne _ _ _ (by omega) _ _]
      exact inv.debt_done j (by omega) hj2
  · intro b hb
    simp only [settleStep] at hb
    rcases List.mem_or_eq_of_mem_set hb with h | h
    · exact inv.cred_cent b h
    · subst h
      exact isCent_round2 _
  · intro b hb
    simp only [settleStep] at hb
    rcases List.mem_or_eq_of_mem_set hb with h | h
    · exact inv.debt_cent b h
    · subst h
      exact isCent_round2 _
  · intro t ht
    simp only [settleStep] at ht
    rcases List.mem_append.mp ht with h | h
    · exact inv.amount_inv t h
    · have ht2 : t = Settlement.mk (s.debtors.getD s.debtorIndex default).participantId
          (s.creditors.getD s.creditorIndex default).participantId
          (round2 (min (s.creditors.getD s.creditorIndex default).net
            (qabs (s.debtors.getD s.debtorIndex default).net))) := by
        simpa using h
      subst ht2
      constructor
      · show tolerance < round2 (min (s.creditors.getD s.creditorIndex default).net
          (qabs (s.debtors.getD s.debtorIndex default).net))
        rw [round2_eq_of_isCent hamount_cent]
        exact hamount_tol
      · exact isCent_round2 _

theorem settleLoop_netInv (tolerance : ℚ) (htol : 0 ≤ tolerance) :
    ∀ (fuel : ℕ) (s : SettleState), NetInv tolerance s →
      NetInv tolerance (settleLoop tolerance fuel s) := by
  intro fuel
  induction fuel with
  | zero => intro s inv; simpa [settleLoop] using inv
  | succ n ih =>
    intro s inv
    rw [settleLoop]
    by_cases hdone : settleDone s
    · rw [if_pos hdone]
      exact inv
    · rw [if_neg hdone]
      exact ih _ (settleStep_netInv tolerance htol s hdone inv)

theorem initial_netInv (balances : List ParticipantBalance) (tolerance : ℚ)
    (hcent : ∀ b ∈ balances, IsCent b.net) :
    NetInv tolerance (initialSettleState balances tolerance) := by
  have hcred : ∀ b ∈ (initialSettleState balances tolerance).creditors,
      tolerance < b.net ∧ IsCent b.net := by
    intro b hb
    simp only [initialSettleState] at hb
    have h2 := (List.perm_insertionSort netGe _).mem_iff.mp hb
    have h3 := List.mem_filter.mp h2
    exact ⟨by simpa using h3.2, hcent b h3.1⟩
  have hdebt : ∀ b ∈ (initialSettleState balances tolerance).debtors,
      b.net < -tolerance ∧ IsCent b.net := by
    intro b hb
    simp only [initialSettleState] at hb
    have h2 := (List.perm_insertionSort netLe _).mem_iff.mp hb
    have h3 := List.mem_filter.mp h2
    exact ⟨by simpa using h3.2, hcent b h3.1⟩
  refine ⟨?_, ?_, ?_, ?_, ?_, ?_, ?_⟩
  · intro j hj1 hj2
    exact (hcred _ (getD_mem _ _ hj2 default)).1
  · intro j hj1 hj2
    exact (hdebt _ (getD_mem _ _ hj2 default)).1
  · intro j hj1 hj2
    simp only [initialSettleState] at hj1
    omega
  · intro j hj1 hj2
    simp only [initialSettleState] at hj1
    omega
  · intro b hb
    exact (hcred b hb).2
  · intro b hb
    exact (hdebt b hb).2
  · intro t ht
    simp only [initialSettleState] at ht
    simp at ht

/-- C10: for balances whose nets are exact cent values and any tolerance
of at least `0.01`, every settlement emitted by `suggestSettlements` has
an amount strictly greater than the tolerance (the residual nets at both
pointers stay beyond the tolerance, and rounding is the identity on cent
amounts), hence at least `0.01` and strictly positive: no zero-amount or
negative transfer is ever suggested. -/
theorem suggestSettlements_amounts (balances : List ParticipantBalance) (tolerance : ℚ)
    (htol : (1 : ℚ) / 100 ≤ tolerance) (hcent : ∀ b ∈ balances, IsCent b.net) :
    ∀ t ∈ suggestSettlements balances tolerance,
      tolerance < t.amount ∧ (1 : ℚ) / 100 ≤ t.amount ∧ 0 < t.amount := by
  have htol0 : (0 : ℚ) ≤ tolerance := le_trans (by norm_num) htol
  have invf := settleLoop_netInv tolerance htol0
    ((initialSettleState balances tolerance).creditors.length
      + (initialSettleState balances tolerance).debtors.length)
    (initialSettleState balances tolerance)
    (initial_netInv balances tolerance hcent)
  intro t ht
  simp only [suggestSettlements] at ht
  have h := invf.amount_inv t ht
  exact ⟨h.1, by linarith, by linarith⟩

/-! ## C1: settlement zero-sum -/

theorem qabs_of_nonneg {x : ℚ} (h : 0 ≤ x) : qabs x = x := by
  rw [qabs, if_neg (not_lt.mpr h)]

theorem sumTo_append (settlements : List Settlement) (t : Settlement) (pid : String) :
    sumTo (settlements ++ [t]) pid
      = sumTo settlements pid + (if t.to_ = pid then t.amount else 0) := by
  unfold sumTo
  rw [List.filter_append]
  by_cases h : t.to_ = pid <;> simp [h]

theorem sumFrom_append (settlements : List Settlement) (t : Settlement) (pid : String) :
    sumFrom (settlements ++ [t]) pid
      = sumFrom settlements pid + (if t.from_ = pid then t.amount else 0) := by
  unfold sumFrom
  rw [List.filter_append]
  by_cases h : t.from_ = pid <;> simp [h]

theorem sumTo_eq_zero {settlements : List Settlement} {pid : String}
    (h : ∀ t ∈ settlements, t.to_ ≠ pid) : sumTo settlements pid = 0 := by
  unfold sumTo
  rw [List.filter_eq_nil.mpr (by intro t ht; simpa using h t ht)]
  rfl

theorem sumFrom_eq_zero {settlements : List Settlement} {pid : String}
    (h : ∀ t ∈ settlements, t.from_ ≠ pid) : sumFrom settlements pid = 0 := by
  unfold sumFrom
  rw [List.filter_eq_nil.mpr (by intro t ht; simpa using h t ht)]
  rfl

theorem getD_pid_mem (l : List ParticipantBalance) (i : ℕ) (hi : i < l.length) :
    (l.getD i default).participantId ∈ l.map ParticipantBalance.participantId :=
  List.mem_map.mpr ⟨_, getD_mem l i hi default, rfl⟩

theorem nodup_map_getD_ne (l : List ParticipantBalance)
    (h : (l.map ParticipantBalance.participantId).Nodup)
    {i j : ℕ} (hi : i < l.length) (hj : j < l.length) (hij : i ≠ j) :
    (l.getD i default).participantId ≠ (l.getD j default).participantId := by
  intro heq
  have hi2 : i < (l.map ParticipantBalance.participantId).length := by simpa using hi
  have hj2 : j < (l.map ParticipantBalance.participantId).length := by simpa using hj
  have hg : (l.map ParticipantBalance.participantId).get ⟨i, hi2⟩
      = (l.map ParticipantBalance.participantId).get ⟨j, hj2⟩ := by
    rw [List.get_map, List.get_map]
    rw [List.getD_eq_getElem _ _ hi, List.getD_eq_getElem _ _ hj] at heq
    simpa using heq
  have := (List.Nodup.get_inj_iff h).mp hg
  simp at this
  exact hij this

theorem settleStep_settleInv (tolerance : ℚ) (cs0 ds0 : List ParticipantBalance)
    (hnodupc : (cs0.map ParticipantBalance.participantId).Nodup)
    (hnodupd : (ds0.map ParticipantBalance.participantId).Nodup)
    (s : SettleState) (hnd : ¬ settleDone s)
    (ninv : NetInv tolerance s) (inv : SettleInv cs0 ds0 s) :
    SettleInv cs0 ds0 (settleStep tolerance s) := by
  have hci : s.creditorIndex < s.creditors.length := by
    unfold settleDone at hnd
    omega
  have hdi : s.debtorIndex < s.debtors.length := by
    unfold settleDone at hnd
    omega
  have hci0 : s.creditorIndex < cs0.length := by rw [← inv.clen]; exact hci
  have hdi0 : s.debtorIndex < ds0.length := by rw [← inv.dlen]; exact hdi
  have hccent : IsCent (s.creditors.getD s.creditorIndex default).net :=
    ninv.cred_cent _ (getD_mem _ _ hci default)
  have hdcent : IsCent (s.debtors.getD s.debtorIndex default).net :=
    ninv.debt_cent _ (getD_mem _ _ hdi default)
  have hamount_cent : IsCent (min (s.creditors.getD s.creditorIndex default).net
      (qabs (s.debtors.getD s.debtorIndex default).net)) :=
    isCent_min hccent (isCent_qabs hdcent)
  have hround_amount : round2 (min (s.creditors.getD s.creditorIndex default).net
      (qabs (s.debtors.getD s.debtorIndex default).net))
      = min (s.creditors.getD s.creditorIndex default).net
          (qabs (s.debtors.getD s.debtorIndex default).net) :=
    round2_eq_of_isCent hamount_cent
  have hcnew : round2 ((s.creditors.getD s.creditorIndex default).net
      - min (s.creditors.getD s.creditorIndex default).net
          (qabs (s.debtors.getD s.debtorIndex default).net))
      = (s.creditors.getD s.creditorIndex default).net
        - min (s.creditors.getD s.creditorIndex default).net
            (qabs (s.debtors.getD s.debtorIndex default).net) :=
    round2_eq_of_isCent (isCent_sub hccent hamount_cent)
  have hdnew : round2 ((s.debtors.getD s.debtorIndex default).net
      + min (s.creditors.getD s.creditorIndex default).net
          (qabs (s.debtors.getD s.debtorIndex default).net))
      = (s.debtors.getD s.debtorIndex default).net
        + min (s.creditors.getD s.creditorIndex default).net
            (qabs (s.debtors.getD s.debtorIndex default).net) :=
    round2_eq_of_isCent (isCent_add hdcent hamount_cent)
  have hcpid : (s.creditors.getD s.creditorIndex default).participantId
      = (cs0.getD s.creditorIndex default).participantId := inv.cred_pid _ hci0
  have hdpid : (s.debtors.getD s.debtorIndex default).participantId
      = (ds0.getD s.debtorIndex default).participantId := inv.debt_pid _ hdi0
  refine ⟨?_, ?_, ?_, ?_, ?_, ?_, ?_, ?_⟩
  · simp only [settleStep, List.length_set]
    exact inv.clen
  · simp only [settleStep, List.length_set]
    exact inv.dlen
  · intro j hj
    simp only [settleStep]
    by_cases hje : j = s.creditorIndex
    · subst hje
      rw [getD_set_eq _ _ hci _ _]
      dsimp only
      rw [hcpid]
    · rw [getD_set_ne _ _ _ (by omega) _ _]
      exact inv.cred_pid j hj
  · intro j hj
    simp only [settleStep]
    by_cases hje : j = s.debtorIndex
    · subst hje
      rw [getD_set_eq _ _ hdi _ _]
      dsimp only
      rw [hdpid]
    · rw [getD_set_ne _ _ _ (by omega) _ _]
      exact inv.debt_pid j hj
  · intro j hj
    simp only [settleStep]
    rw [sumTo_append]
    dsimp only
    by_cases hje : j = s.creditorIndex
    · subst hje
      rw [getD_set_eq _ _ hci _ _]
      dsimp only
      rw [if_pos hcpid]
      rw [hcnew, hround_amount, inv.cred_net _ hci0]
      ring
    · rw [getD_set_ne _ _ _ (by omega) _ _]
      rw [if_neg ?hne]
      case hne =>
        rw [hcpid]
        exact nodup_map_getD_ne cs0 hnodupc hci0 hj (by omega)
      rw [inv.cred_net j hj]
      ring
  · intro j hj
    simp only [settleStep]
    rw [sumFrom_append]
    dsimp only
    by_cases hje : j = s.debtorIndex
    · subst hje
      rw [getD_set_eq _ _ hdi _ _]
      dsimp only
      rw [if_pos hdpid]
      rw [hdnew, hround_amount, inv.debt_net _ hdi0]
      ring
    · rw [getD_set_ne _ _ _ (by omega) _ _]
      rw [if_neg ?hne2]
      case hne2 =>
        rw [hdpid]
        exact nodup_map_getD_ne ds0 hnodupd hdi0 hj (by omega)
      rw [inv.debt_net j hj]
      ring
  · intro t ht
    simp only [settleStep] at ht
    rcases List.mem_append.mp ht with h | h
    · exact inv.to_mem t h
    · have ht2 : t = Settlement.mk (s.debtors.getD s.debtorIndex default).participantId
          (s.creditors.getD s.creditorIndex default).participantId
          (round2 (min (s.creditors.getD s.creditorIndex default).net
            (qabs (s.debtors.getD s.debtorIndex default).net))) := by
        simpa using h
      subst ht2
      dsimp only
      rw [hcpid]
      exact getD_pid_mem cs0 _ hci0
  · intro t ht
    simp only [settleStep] at ht
    rcases List.mem_append.mp ht with h | h
    · exact inv.from_mem t h
    · have ht2 : t = Settlement.mk (s.debtors.getD s.debtorIndex default).participantId
          (s.creditors.getD s.creditorIndex default).participantId
          (round2 (min (s.creditors.getD s.creditorIndex default).net
            (qabs (s.debtors.getD s.debtorIndex default).net))) := by
        simpa using h
      subst ht2
      dsimp only
      rw [hdpid]
      exact getD_pid_mem ds0 _ hdi0

theorem settleLoop_settleInv (tolerance : ℚ) (htol : 0 ≤ tolerance)
    (cs0 ds0 : List ParticipantBalance)
    (hnodupc : (cs0.map ParticipantBalance.participantId).Nodup)
    (hnodupd : (ds0.map ParticipantBalance.participantId).Nodup) :
    ∀ (fuel : ℕ) (s : SettleState), NetInv tolerance s → SettleInv cs0 ds0 s →
      SettleInv cs0 ds0 (settleLoop tolerance fuel s) := by
  intro fuel
  induction fuel with
  | zero =>
    intro s ninv inv
    simpa [settleLoop] using inv
  | succ n ih =>
    intro s ninv inv
    rw [settleLoop]
    by_cases hdone : settleDone s
    · rw [if_pos hdone]
      exact inv
    · rw [if_neg hdone]
      exact ih _ (settleStep_netInv tolerance htol s hdone ninv)
        (settleStep_settleInv tolerance cs0 ds0 hnodupc hnodupd s hdone ninv inv)

theorem initial_settleInv (balances : List ParticipantBalance) (tolerance : ℚ) :
    SettleInv (initialSettleState balances tolerance).creditors
      (initialSettleState balances tolerance).debtors
      (initialSettleState balances tolerance) := by
  refine ⟨rfl, rfl, fun j hj => rfl, fun j hj => rfl, ?_, ?_, ?_, ?_⟩
  · intro j hj
    have h0 : sumTo (initialSettleState balances tolerance).settlements
        ((initialSettleState balances tolerance).creditors.getD j default).participantId = 0 :=
      rfl
    rw [h0, sub_zero]
  · intro j hj
    have h0 : sumFrom (initialSettleState balances tolerance).settlements
        ((initialSettleState balances tolerance).debtors.getD j default).participantId = 0 :=
      rfl
    rw [h0, add_zero]
  · intro t ht
    simp only [initialSettleState] at ht
    simp at ht
  · intro t ht
    simp only [initialSettleState] at ht
    simp at ht

theorem mem_initial_creditors (balances : List ParticipantBalance) (tolerance : ℚ)
    (b : ParticipantBalance) :
    b ∈ (initialSettleState balances tolerance).creditors
      ↔ b ∈ balances ∧ tolerance < b.net := by
  simp only [initialSettleState]
  rw [(List.perm_insertionSort netGe _).mem_iff]
  simp [List.mem_filter]

theorem mem_initial_debtors (balances : List ParticipantBalance) (tolerance : ℚ)
    (b : ParticipantBalance) :
    b ∈ (initialSettleState balances tolerance).debtors
      ↔ b ∈ balances ∧ b.net < -tolerance := by
  simp only [initialSettleState]
  rw [(List.perm_insertionSort netLe _).mem_iff]
  simp [List.mem_filter]

theorem creditors_pid_nodup (balances : List ParticipantBalance) (tolerance : ℚ)
    (hnodup : (balances.map ParticipantBalance.participantId).Nodup) :
    ((initialSettleState balances tolerance).creditors.map
      ParticipantBalance.participantId).Nodup := by
  simp only [initialSettleState]
  have hperm := (List.perm_insertionSort netGe
    (balances.filter (fun balance => tolerance < balance.net))).map
      ParticipantBalance.participantId
  rw [hperm.nodup_iff]
  exact ((List.filter_sublist balances).map ParticipantBalance.participantId).nodup hnodup

theorem debtors_pid_nodup (balances : List ParticipantBalance) (tolerance : ℚ)
    (hnodup : (balances.map ParticipantBalance.participantId).Nodup) :
    ((initialSettleState balances tolerance).debtors.map
      ParticipantBalance.participantId).Nodup := by
  simp only [initialSettleState]
  have hperm := (List.perm_insertionSort netLe
    (balances.filter (fun balance => balance.net < -tolerance))).map
      ParticipantBalance.participantId
  rw [hperm.nodup_iff]
  exact ((List.filter_sublist balances).map ParticipantBalance.participantId).nodup hnodup

theorem not_mem_creditor_pids (balances : List ParticipantBalance) (tolerance : ℚ)
    (hnodup : (balances.map ParticipantBalance.participantId).Nodup)
    (b : ParticipantBalance) (hb : b ∈ balances) (hnet : ¬ tolerance < b.net) :
    b.participantId ∉ (initialSettleState balances tolerance).creditors.map
      ParticipantBalance.participantId := by
  intro hmem
  obtain ⟨b2, hb2, heq⟩ := List.mem_map.mp hmem
  have h2 := (mem_initial_creditors balances tolerance b2).mp hb2
  have hbe : b2 = b := List.inj_on_of_nodup_map hnodup h2.1 hb heq
  rw [hbe] at h2
  exact hnet h2.2

theorem not_mem_debtor_pids (balances : List ParticipantBalance) (tolerance : ℚ)
    (hnodup : (balances.map ParticipantBalance.participantId).Nodup)
    (b : ParticipantBalance) (hb : b ∈ balances) (hnet : ¬ b.net < -tolerance) :
    b.participantId ∉ (initialSettleState balances tolerance).debtors.map
      ParticipantBalance.participantId := by
  intro hmem
  obtain ⟨b2, hb2, heq⟩ := List.mem_map.mp hmem
  have h2 := (mem_initial_debtors balances tolerance b2).mp hb2
  have hbe : b2 = b := List.inj_on_of_nodup_map hnodup h2.1 hb heq
  rw [hbe] at h2
  exact hnet h2.2

/-- C1 amended: for balances with whole-cent nets and distinct
participant ids, **when the greedy loop exhausts both the creditor and
the debtor partitions**, applying every settlement returned by
`suggestSettlements` (default tolerance `0.01`) leaves every
participant's adjusted net within the tolerance of zero.  (Nets summing
to ≈0 alone do not guarantee this: participants whose net is already
within tolerance are excluded from the partitions and residuals up to the
tolerance are abandoned, so one partition can run out first and leave the
other with residuals beyond tolerance — see the counterexample.) -/
theorem suggestSettlements_exhausted_within_tolerance (balances : List ParticipantBalance)
    (hcent : ∀ b ∈ balances, IsCent b.net)
    (hnodup : (balances.map ParticipantBalance.participantId).Nodup)
    (hdone :
      (settleLoop ((1 : ℚ) / 100)
          ((initialSettleState balances ((1 : ℚ) / 100)).creditors.length
            + (initialSettleState balances ((1 : ℚ) / 100)).debtors.length)
          (initialSettleState balances ((1 : ℚ) / 100))).creditorIndex
        = (initialSettleState balances ((1 : ℚ) / 100)).creditors.length
      ∧ (settleLoop ((1 : ℚ) / 100)
          ((initialSettleState balances ((1 : ℚ) / 100)).creditors.length
            + (initialSettleState balances ((1 : ℚ) / 100)).debtors.length)
          (initialSettleState balances ((1 : ℚ) / 100))).debtorIndex
        = (initialSettleState balances ((1 : ℚ) / 100)).debtors.length) :
    ∀ b ∈ balances,
      qabs (appliedNet (suggestSettlements balances ((1 : ℚ) / 100)) b) ≤ (1 : ℚ) / 100 := by
  intro b hb
  have htol0 : (0 : ℚ) ≤ 1 / 100 := by norm_num
  set s0 := initialSettleState balances ((1 : ℚ) / 100) with hs0
  set sf := settleLoop ((1 : ℚ) / 100) (s0.creditors.length + s0.debtors.length) s0 with hsf
  have hnodupc := creditors_pid_nodup balances ((1 : ℚ) / 100) hnodup
  have hnodupd := debtors_pid_nodup balances ((1 : ℚ) / 100) hnodup
  have ninvf : NetInv ((1 : ℚ) / 100) sf :=
    settleLoop_netInv ((1 : ℚ) / 100) htol0 _ _ (initial_netInv balances ((1 : ℚ) / 100) hcent)
  have sinvf : SettleInv s0.creditors s0.debtors sf :=
    settleLoop_settleInv ((1 : ℚ) / 100) htol0 s0.creditors s0.debtors hnodupc hnodupd _ _
      (initial_netInv balances ((1 : ℚ) / 100) hcent)
      (initial_settleInv balances ((1 : ℚ) / 100))
  have hS : suggestSettlements balances ((1 : ℚ) / 100) = sf.settlements := by
    simp only [suggestSettlements]
  rw [hS]
  by_cases hc : (1 : ℚ) / 100 < b.net
  · have hbmem : b ∈ s0.creditors := (mem_initial_creditors balances _ b).mpr ⟨hb, hc⟩
    obtain ⟨⟨j, hj⟩, hget⟩ := List.mem_iff_get.mp hbmem
    have hgetD : s0.creditors.getD j default = b := by
      rw [List.getD_eq_getElem _ _ hj]
      simpa using hget
    have hfrom0 : sumFrom sf.settlements b.participantId = 0 := by
      apply sumFrom_eq_zero
      intro t ht heq
      have hmem := sinvf.from_mem t ht
      rw [heq] at hmem
      exact not_mem_debtor_pids balances ((1 : ℚ) / 100) hnodup b hb (by linarith) hmem
    have happ : appliedNet sf.settlements b = (sf.creditors.getD j default).net := by
      unfold appliedNet
      rw [hfrom0, add_zero, sinvf.cred_net j hj, hgetD]
    rw [happ]
    have hjf : j < sf.creditorIndex := by
      rw [hdone.1]
      exact hj
    have hjl : j < sf.creditors.length := by
      rw [sinvf.clen]
      exact hj
    have hcd := ninvf.cred_done j hjf hjl
    rw [qabs_of_nonneg hcd.1]
    exact hcd.2
  · by_cases hd : b.net < -((1 : ℚ) / 100)
    · have hbmem : b ∈ s0.debtors := (mem_initial_debtors balances _ b).mpr ⟨hb, hd⟩
      obtain ⟨⟨j, hj⟩, hget⟩ := List.mem_iff_get.mp hbmem
      have hgetD : s0.debtors.getD j default = b := by
        rw [List.getD_eq_getElem _ _ hj]
        simpa using hget
      have hto0 : sumTo sf.settlements b.participantId = 0 := by
        apply sumTo_eq_zero
        intro t ht heq
        have hmem := sinvf.to_mem t ht
        rw [heq] at hmem
        exact not_mem_creditor_pids balances ((1 : ℚ) / 100) hnodup b hb hc hmem
      have happ : appliedNet sf.settlements b = (sf.debtors.getD j default).net := by
        unfold appliedNet
        rw [hto0, sub_zero, sinvf.debt_net j hj, hgetD]
      rw [happ]
      have hjf : j < sf.debtorIndex := by
        rw [hdone.2]
        exact hj
      have hjl : j < sf.debtors.length := by
        rw [sinvf.dlen]
        exact hj
      have hdd := ninvf.debt_done j hjf hjl
      rw [qabs_of_nonpos hdd.2]
      linarith [hdd.1]
    · have hto0 : sumTo sf.settlements b.participantId = 0 := by
        apply sumTo_eq_zero
        intro t ht heq
        have hmem := sinvf.to_mem t ht
        rw [heq] at hmem
        exact not_mem_creditor_pids balances ((1 : ℚ) / 100) hnodup b hb hc hmem
      have hfrom0 : sumFrom sf.settlements b.participantId = 0 := by
        apply sumFrom_eq_zero
        intro t ht heq
        have hmem := sinvf.from_mem t ht
        rw [heq] at hmem
        exact not_mem_debtor_pids balances ((1 : ℚ) / 100) hnodup b hb hd hmem
      have happ : appliedNet sf.settlements b = b.net := by
        unfold appliedNet
        rw [hto0, hfrom0, sub_zero, add_zero]
      rw [happ]
      rcases le_or_lt 0 b.net with hsign | hsign
      · rw [qabs_of_nonneg hsign]
        linarith
      · rw [qabs_of_nonpos (le_of_lt hsign)]
        linarith

/-- C1 witness for the amended claim: balances `+0.03` / `−0.03` — the
loop exhausts both partitions and the single participant `a` ends at
exactly `0`. -/
theorem suggestSettlements_exhausted_within_tolerance_witness :
    qabs (appliedNet (suggestSettlements [ParticipantBalance.mk "a" 0 0 ((3 : ℚ) / 100),
        ParticipantBalance.mk "b" 0 0 (-((3 : ℚ) / 100))] ((1 : ℚ) / 100))
      (ParticipantBalance.mk "a" 0 0 ((3 : ℚ) / 100))) ≤ (1 : ℚ) / 100 :=
  suggestSettlements_exhausted_within_tolerance
    [ParticipantBalance.mk "a" 0 0 ((3 : ℚ) / 100),
      ParticipantBalance.mk "b" 0 0 (-((3 : ℚ) / 100))]
    (by
      intro b hb
      rcases List.mem_cons.mp hb with h | h
      · subst h
        exact ⟨3, by norm_num⟩
      · have h2 : b = ParticipantBalance.mk "b" 0 0 (-((3 : ℚ) / 100)) := by simpa using h
        subst h2
        exact ⟨-3, by norm_num⟩)
    (by simp)
    (by constructor <;>
      norm_num [initialSettleState, List.insertionSort, List.orderedInsert, netGe, netLe,
        settleLoop, settleStep, settleDone, qabs, round2])
    (ParticipantBalance.mk "a" 0 0 ((3 : ℚ) / 100))
    (by simp)

set_option maxHeartbeats 2000000 in
/-- C1 counterexample: the nets `[+0.03, +0.03, −0.02, −0.02, −0.02]` sum
to exactly zero, yet after applying the two settlements the code emits,
participant `e` still sits at `−0.02`, beyond the default tolerance
`0.01`: both creditors are abandoned at residual `0.01` and the creditor
list is exhausted before the third debtor is reached. -/
theorem suggestSettlements_zero_sum_counterexample :
    ([ParticipantBalance.mk "a" 0 0 ((3 : ℚ) / 100),
        ParticipantBalance.mk "b" 0 0 ((3 : ℚ) / 100),
        ParticipantBalance.mk "c" 0 0 (-((2 : ℚ) / 100)),
        ParticipantBalance.mk "d" 0 0 (-((2 : ℚ) / 100)),
        ParticipantBalance.mk "e" 0 0 (-((2 : ℚ) / 100))].map ParticipantBalance.net).sum = 0
    ∧ ¬ (∀ b ∈ [ParticipantBalance.mk "a" 0 0 ((3 : ℚ) / 100),
        ParticipantBalance.mk "b" 0 0 ((3 : ℚ) / 100),
        ParticipantBalance.mk "c" 0 0 (-((2 : ℚ) / 100)),
        ParticipantBalance.mk "d" 0 0 (-((2 : ℚ) / 100)),
        ParticipantBalance.mk "e" 0 0 (-((2 : ℚ) / 100))],
        qabs (appliedNet (suggestSettlements
          [ParticipantBalance.mk "a" 0 0 ((3 : ℚ) / 100),
            ParticipantBalance.mk "b" 0 0 ((3 : ℚ) / 100),
            ParticipantBalance.mk "c" 0 0 (-((2 : ℚ) / 100)),
            ParticipantBalance.mk "d" 0 0 (-((2 : ℚ) / 100)),
            ParticipantBalance.mk "e" 0 0 (-((2 : ℚ) / 100))] ((1 : ℚ) / 100)) b)
          ≤ (1 : ℚ) / 100) := by
  have hS : suggestSettlements
      [ParticipantBalance.mk "a" 0 0 ((3 : ℚ) / 100),
        ParticipantBalance.mk "b" 0 0 ((3 : ℚ) / 100),
        ParticipantBalance.mk "c" 0 0 (-((2 : ℚ) / 100)),
        ParticipantBalance.mk "d" 0 0 (-((2 : ℚ) / 100)),
        ParticipantBalance.mk "e" 0 0 (-((2 : ℚ) / 100))] ((1 : ℚ) / 100)
      = [Settlement.mk "c" "a" ((2 : ℚ) / 100), Settlement.mk "d" "b" ((2 : ℚ) / 100)] := by
    norm_num [suggestSettlements, initialSettleState, List.insertionSort, List.orderedInsert,
      netGe, netLe, settleLoop, settleStep, settleDone, qabs, round2]
  constructor
  · norm_num
  · intro hall
    have h := hall (ParticipantBalance.mk "e" 0 0 (-((2 : ℚ) / 100))) (by simp)
    rw [hS] at h
    have happ : appliedNet [Settlement.mk "c" "a" ((2 : ℚ) / 100),
        Settlement.mk "d" "b" ((2 : ℚ) / 100)]
        (ParticipantBalance.mk "e" 0 0 (-((2 : ℚ) / 100))) = -((2 : ℚ) / 100) := by
      norm_num [appliedNet, sumTo, sumFrom, List.filter_cons, List.filter_nil,
        (by decide : ¬ (("a" : String) = "e")), (by decide : ¬ (("b" : String) = "e")),
        (by decide : ¬ (("c" : String) = "e")), (by decide : ¬ (("d" : String) = "e"))]
    rw [happ, qabs_of_nonpos (by norm_num)] at h
    norm_num at h

/-- C10 witness: balances `+0.03` / `−0.03` at the default tolerance
`0.01`: the emitted settlement `b → a` of `0.03` exceeds the tolerance. -/
theorem suggestSettlements_amounts_witness :
    (1 : ℚ) / 100 < (Settlement.mk "b" "a" ((3 : ℚ) / 100)).amount
    ∧ (1 : ℚ) / 100 ≤ (Settlement.mk "b" "a" ((3 : ℚ) / 100)).amount
    ∧ 0 < (Settlement.mk "b" "a" ((3 : ℚ) / 100)).amount :=
  suggestSettlements_amounts
    [ParticipantBalance.mk "a" 0 0 ((3 : ℚ) / 100),
      ParticipantBalance.mk "b" 0 0 (-((3 : ℚ) / 100))]
    ((1 : ℚ) / 100) le_rfl
    (by
      intro b hb
      rcases List.mem_cons.mp hb with h | h
      · subst h
        exact ⟨3, by norm_num⟩
      · have h2 : b = ParticipantBalance.mk "b" 0 0 (-((3 : ℚ) / 100)) := by simpa using h
        subst h2
        exact ⟨-3, by norm_num⟩)
    (Settlement.mk "b" "a" ((3 : ℚ) / 100))
    (by norm_num [suggestSettlements, initialSettleState, List.insertionSort,
      List.orderedInsert, netGe, netLe, settleLoop, settleStep, settleDone, qabs, round2])

/-! ## C5: expense order does not affect calculateEventBalances -/

theorem isCent_sum (l : List ℚ) (h : ∀ x ∈ l, IsCent x) : IsCent l.sum := by
  induction l with
  | nil => simpa using isCent_zero
  | cons a rest ih =>
    simp only [List.sum_cons]
    exact isCent_add (h a (by simp)) (ih (fun x hx => h x (by simp [hx])))

theorem isCent_paidContrib (expense : Expense) (k : String) (hc : CentPayers expense) :
    IsCent (paidContrib expense k) := by
  unfold paidContrib
  apply isCent_sum
  intro x hx
  obtain ⟨a2, ha2, rfl⟩ := List.mem_map.mp hx
  exact hc a2 (List.mem_of_mem_filter ha2)

theorem calculateExpenseShares_isCent (expense : Expense) :
    ∀ share ∈ calculateExpenseShares expense, IsCent share.amount := by
  intro share hs
  simp only [calculateExpenseShares] at hs
  obtain ⟨entry, _, rfl⟩ := List.mem_map.mp hs
  exact isCent_fromCents entry.cents

theorem isCent_owesContrib (expense : Expense) (k : String) :
    IsCent (owesContrib expense k) := by
  unfold owesContrib
  apply isCent_sum
  intro x hx
  obtain ⟨s2, hs2, rfl⟩ := List.mem_map.mp hx
  exact calculateExpenseShares_isCent expense s2 (List.mem_of_mem_filter hs2)

theorem goodMap_mapUpdate_addPaid (m : BalanceMap) (pid : String) (amt : ℚ)
    (hg : GoodMap m) : GoodMap (mapUpdate m pid (addPaid amt)) := by
  intro entry he
  unfold mapUpdate at he
  obtain ⟨orig, ho, rfl⟩ := List.mem_map.mp he
  by_cases h : orig.1 = pid
  · simp only [if_pos h]
    exact ⟨isCent_round2 _, (hg orig ho).2⟩
  · simp only [if_neg h]
    exact hg orig ho

theorem goodMap_mapUpdate_addOwes (m : BalanceMap) (pid : String) (amt : ℚ)
    (hg : GoodMap m) : GoodMap (mapUpdate m pid (addOwes amt)) := by
  intro entry he
  unfold mapUpdate at he
  obtain ⟨orig, ho, rfl⟩ := List.mem_map.mp he
  by_cases h : orig.1 = pid
  · simp only [if_pos h]
    exact ⟨(hg orig ho).1, isCent_round2 _⟩
  · simp only [if_neg h]
    exact hg orig ho

theorem foldPaid_eq (allocs : List PayerAllocation) :
    ∀ m : BalanceMap, GoodMap m → (∀ a ∈ allocs, IsCent a.amount) →
      allocs.foldl (fun acc allocation =>
          mapUpdate acc allocation.participantId (addPaid allocation.amount)) m
        = m.map (fun entry => (entry.1,
            ParticipantBalance.mk entry.2.participantId
              (entry.2.paid + ((allocs.filter (fun a => a.participantId = entry.1)).map
                PayerAllocation.amount).sum)
              entry.2.owes entry.2.net)) := by
  induction allocs with
  | nil =>
    intro m hg hc
    simp only [List.foldl_nil, List.filter_nil, List.map_nil, List.sum_nil]
    have hid : ∀ e ∈ m, (e.1, ParticipantBalance.mk e.2.participantId (e.2.paid + 0)
        e.2.owes e.2.net) = e := by
      intro e he
      rw [add_zero]
    rw [List.map_congr_left hid]
    exact (List.map_id m).symm
  | cons a rest ih =>
    intro m hg hc
    simp only [List.foldl_cons]
    rw [ih (mapUpdate m a.participantId (addPaid a.amount))
      (goodMap_mapUpdate_addPaid m a.participantId a.amount hg)
      (fun x hx => hc x (List.mem_cons_of_mem a hx))]
    unfold mapUpdate
    rw [List.map_map]
    apply List.map_congr_left
    intro entry hentry
    simp only [Function.comp_apply]
    by_cases he : entry.1 = a.participantId
    · rw [if_pos he]
      have hround : round2 (entry.2.paid + a.amount) = entry.2.paid + a.amount :=
        round2_eq_of_isCent (isCent_add (hg entry hentry).1 (hc a (List.mem_cons_self a rest)))
      simp only [addPaid]
      rw [hround]
      rw [List.filter_cons, if_pos (by simp [he]), List.map_cons, List.sum_cons]
      rw [add_assoc]
    · rw [if_neg he]
      rw [List.filter_cons, if_neg (by simp only [decide_eq_true_eq]; exact fun hx => he hx.symm)]

theorem foldOwes_eq (shares : List ExpenseShare) :
    ∀ m : BalanceMap, GoodMap m → (∀ s ∈ shares, IsCent s.amount) →
      shares.foldl (fun acc share =>
          mapUpdate acc share.participantId (addOwes share.amount)) m
        = m.map (fun entry => (entry.1,
            ParticipantBalance.mk entry.2.participantId entry.2.paid
              (entry.2.owes + ((shares.filter (fun s => s.participantId = entry.1)).map
                ExpenseShare.amount).sum)
              entry.2.net)) := by
  induction shares with
  | nil =>
    intro m hg hc
    simp only [List.foldl_nil, List.filter_nil, List.map_nil, List.sum_nil]
    have hid : ∀ e ∈ m, (e.1, ParticipantBalance.mk e.2.participantId e.2.paid
        (e.2.owes + 0) e.2.net) = e := by
      intro e he
      rw [add_zero]
    rw [List.map_congr_left hid]
    exact (List.map_id m).symm
  | cons a rest ih =>
    intro m hg hc
    simp only [List.foldl_cons]
    rw [ih (mapUpdate m a.participantId (addOwes a.amount))
      (goodMap_mapUpdate_addOwes m a.participantId a.amount hg)
      (fun x hx => hc x (List.mem_cons_of_mem a hx))]
    unfold mapUpdate
    rw [List.map_map]
    apply List.map_congr_left
    intro entry hentry
    simp only [Function.comp_apply]
    by_cases he : entry.1 = a.participantId
    · rw [if_pos he]
      have hround : round2 (entry.2.owes + a.amount) = entry.2.owes + a.amount :=
        round2_eq_of_isCent (isCent_add (hg entry hentry).2 (hc a (List.mem_cons_self a rest)))
      simp only [addOwes]
      rw [hround]
      rw [List.filter_cons, if_pos (by simp [he]), List.map_cons, List.sum_cons]
      rw [add_assoc]
    · rw [if_neg he]
      rw [List.filter_cons, if_neg (by simp only [decide_eq_true_eq]; exact fun hx => he hx.symm)]

theorem applyExpense_eq (m : BalanceMap) (expense : Expense) (hg : GoodMap m)
    (hc : CentPayers expense) :
    applyExpense m expense = m.map (balContrib expense) := by
  unfold applyExpense
  rw [foldPaid_eq expense.paidBy m hg hc]
  have hg2 : GoodMap (m.map (fun entry => (entry.1, ParticipantBalance.mk
      entry.2.participantId
      (entry.2.paid + ((expense.paidBy.filter (fun a => a.participantId = entry.1)).map
        PayerAllocation.amount).sum)
      entry.2.owes entry.2.net))) := by
    intro entry he
    obtain ⟨orig, ho, rfl⟩ := List.mem_map.mp he
    refine ⟨isCent_add (hg orig ho).1 ?_, (hg orig ho).2⟩
    exact isCent_paidContrib expense orig.1 hc
  rw [foldOwes_eq (calculateExpenseShares expense) _ hg2 (calculateExpenseShares_isCent expense)]
  rw [List.map_map]
  apply List.map_congr_left
  intro entry _
  rfl

theorem goodMap_balContrib (m : BalanceMap) (e : Expense) (hg : GoodMap m)
    (hc : CentPayers e) : GoodMap (m.map (balContrib e)) := by
  intro entry he
  obtain ⟨orig, ho, rfl⟩ := List.mem_map.mp he
  exact ⟨isCent_add (hg orig ho).1 (isCent_paidContrib e orig.1 hc),
    isCent_add (hg orig ho).2 (isCent_owesContrib e orig.1)⟩

theorem goodMap_applyExpense (m : BalanceMap) (e : Expense) (hg : GoodMap m)
    (hc : CentPayers e) : GoodMap (applyExpense m e) := by
  rw [applyExpense_eq m e hg hc]
  exact goodMap_balContrib m e hg hc

theorem applyExpense_comm (m : BalanceMap) (e1 e2 : Expense) (hg : GoodMap m)
    (h1 : CentPayers e1) (h2 : CentPayers e2) :
    applyExpense (applyExpense m e1) e2 = applyExpense (applyExpense m e2) e1 := by
  rw [applyExpense_eq m e1 hg h1, applyExpense_eq _ e2 (goodMap_balContrib m e1 hg h1) h2,
    applyExpense_eq m e2 hg h2, applyExpense_eq _ e1 (goodMap_balContrib m e2 hg h2) h1,
    List.map_map, List.map_map]
  apply List.map_congr_left
  intro entry _
  simp only [Function.comp_apply, balContrib]
  simp only [Prod.mk.injEq, ParticipantBalance.mk.injEq]
  exact ⟨trivial, trivial, by ring, by ring, trivial⟩

theorem goodMap_mapSet (m : BalanceMap) (pid : String) (v : ParticipantBalance)
    (hg : GoodMap m) (hv : IsCent v.paid ∧ IsCent v.owes) : GoodMap (mapSet m pid v) := by
  intro entry he
  unfold mapSet at he
  by_cases h : m.any (fun entry => entry.1 = pid)
  · rw [if_pos h] at he
    obtain ⟨orig, ho, rfl⟩ := List.mem_map.mp he
    by_cases h2 : orig.1 = pid
    · simp only [if_pos h2]
      exact hv
    · simp only [if_neg h2]
      exact hg orig ho
  · rw [if_neg h] at he
    rcases List.mem_append.mp he with h2 | h2
    · exact hg entry h2
    · have : entry = (pid, v) := by simpa using h2
      subst this
      exact hv

theorem goodMap_initial (participants : List Participant) :
    GoodMap (initialBalances participants) := by
  unfold initialBalances
  have hgen : ∀ (l : List Participant) (m : BalanceMap), GoodMap m →
      GoodMap (l.foldl (fun m p => mapSet m p.id ⟨p.id, 0, 0, 0⟩) m) := by
    intro l
    induction l with
    | nil => intro m hm; simpa using hm
    | cons p rest ih =>
      intro m hm
      simp only [List.foldl_cons]
      exact ih _ (goodMap_mapSet m p.id ⟨p.id, 0, 0, 0⟩ hm ⟨isCent_zero, isCent_zero⟩)
  exact hgen participants [] (by intro entry he; simp at he)

theorem foldl_perm_of_good {α β : Type} (P : β → Prop) (Q : α → Prop) (f : β → α → β)
    (hpres : ∀ b a, P b → Q a → P (f b a))
    (hcomm : ∀ b a1 a2, P b → Q a1 → Q a2 → f (f b a1) a2 = f (f b a2) a1) :
    ∀ {l1 l2 : List α}, l1.Perm l2 → (∀ a ∈ l1, Q a) → ∀ b, P b →
      l1.foldl f b = l2.foldl f b := by
  intro l1 l2 hperm
  induction hperm with
  | nil =>
    intro _ b _
    rfl
  | cons x hp ih =>
    intro hQ b hP
    simp only [List.foldl_cons]
    exact ih (fun a ha => hQ a (List.mem_cons_of_mem _ ha)) (f b x)
      (hpres b x hP (hQ x (List.mem_cons_self _ _)))
  | swap x y l =>
    intro hQ b hP
    simp only [List.foldl_cons]
    rw [hcomm b y x hP (hQ y (by simp)) (hQ x (by simp))]
  | trans h12 h23 ih12 ih23 =>
    intro hQ b hP
    rw [ih12 hQ b hP, ih23 (fun a ha => hQ a (h12.mem_iff.mpr ha)) b hP]

/-- C5: for every event whose payer allocation amounts are whole cents
(the data model's two-decimal contract) and every permutation of its
expense list, `calculateEventBalances` returns the same summary: the
per-expense re-rounding collapses on cent inputs, so every fold step
commutes and the order of expenses does not affect paid, owes, net or the
totals. -/
theorem calculateEventBalances_perm (event : Event) (expenses2 : List Expense)
    (hcentp : ∀ e ∈ event.expenses, CentPayers e)
    (hperm : event.expenses.Perm expenses2) :
    calculateEventBalances (Event.mk event.id event.participants expenses2)
      = calculateEventBalances event := by
  have hQ2 : ∀ e ∈ expenses2, CentPayers e := fun e he => hcentp e (hperm.mem_iff.mpr he)
  have hmap : expenses2.foldl applyExpense (initialBalances event.participants)
      = event.expenses.foldl applyExpense (initialBalances event.participants) :=
    foldl_perm_of_good GoodMap CentPayers applyExpense
      (fun m e hm he => goodMap_applyExpense m e hm he)
      (fun m e1 e2 hm hq1 hq2 => applyExpense_comm m e1 e2 hm hq1 hq2)
      hperm.symm hQ2 _ (goodMap_initial event.participants)
  have htot : expenses2.foldl (fun total expense => total + expense.amount) 0
      = event.expenses.foldl (fun total expense => total + expense.amount) 0 :=
    foldl_perm_of_good (fun _ => True) (fun _ => True)
      (fun total expense => total + expense.amount)
      (fun _ _ _ _ => trivial)
      (fun t e1 e2 _ _ _ => by ring)
      hperm.symm (fun _ _ => trivial) 0 trivial
  simp only [calculateEventBalances]
  rw [hmap, htot]

/-- C5 witness: swapping two expenses (100.00 paid by `a`, 60.00 paid by
`b`, both split evenly) leaves the computed summary unchanged. -/
theorem calculateEventBalances_perm_witness :
    calculateEventBalances (Event.mk "ev" [Participant.mk "a" "A", Participant.mk "b" "B"]
        [Expense.mk "e2" 60 [PayerAllocation.mk "b" 60] (SplitInstruction.even ["a", "b"]),
          Expense.mk "e1" 100 [PayerAllocation.mk "a" 100] (SplitInstruction.even ["a", "b"])])
      = calculateEventBalances (Event.mk "ev" [Participant.mk "a" "A", Participant.mk "b" "B"]
        [Expense.mk "e1" 100 [PayerAllocation.mk "a" 100] (SplitInstruction.even ["a", "b"]),
          Expense.mk "e2" 60 [PayerAllocation.mk "b" 60] (SplitInstruction.even ["a", "b"])]) :=
  calculateEventBalances_perm
    (Event.mk "ev" [Participant.mk "a" "A", Participant.mk "b" "B"]
      [Expense.mk "e1" 100 [PayerAllocation.mk "a" 100] (SplitInstruction.even ["a", "b"]),
        Expense.mk "e2" 60 [PayerAllocation.mk "b" 60] (SplitInstruction.even ["a", "b"])])
    [Expense.mk "e2" 60 [PayerAllocation.mk "b" 60] (SplitInstruction.even ["a", "b"]),
      Expense.mk "e1" 100 [PayerAllocation.mk "a" 100] (SplitInstruction.even ["a", "b"])]
    (by
      intro e he
      rcases List.mem_cons.mp he with h | h
      · subst h
        intro a ha
        have ha2 : a = PayerAllocation.mk "a" 100 := by simpa using ha
        subst ha2
        exact ⟨10000, by norm_num⟩
      · have h2 : e = Expense.mk "e2" 60 [PayerAllocation.mk "b" 60]
            (SplitInstruction.even ["a", "b"]) := by simpa using h
        subst h2
        intro a ha
        have ha2 : a = PayerAllocation.mk "b" 60 := by simpa using ha
        subst ha2
        exact ⟨6000, by norm_num⟩)
    (List.Perm.swap _ _ _)

end ExpenseSplitter
